import Mathlib

/-!
# Verification of the tool-schema JSON Schema engine

A shallow embedding, in Lean 4, of the data model and the operations of the
tool-schema multi-dialect JSON Schema engine, together with theorems that
settle the specification claims about:

* the stable topological sort of keyword descriptors (`sortKeywords`),
* output-unit propagation (`emitOutput`) and annotation collection,
* the `$dynamicRef` dynamic-scope target replacement,
* the `contains`, `unevaluatedItems`, object-applicator and validation
  keywords of the Draft 2020-12 dialect,
* boolean schemas, unknown keywords, and the failure behaviour of the
  parse pipeline.

Machine numbers (IEEE-754 doubles in the source) are modelled as rationals;
every number appearing in the claims and witnesses is exactly representable.
Mutation of the evaluation stack and of output units is modelled by explicit
state passing; a thrown `ValidationError` is modelled by an `Except` error
result.
-/

set_option maxHeartbeats 1000000

/-- JSON value: tagged variant for null, booleans, numbers, strings, arrays
and insertion-ordered objects.  Numbers (IEEE-754 doubles in the source) are
modelled as rationals. -/
inductive Json : Type where
  | null : Json
  | bool (b : Bool) : Json
  | num (q : ℚ) : Json
  | str (s : String) : Json
  | arr (items : List Json) : Json
  | obj (fields : List (String × Json)) : Json

instance : Inhabited Json := ⟨Json.null⟩

/-- `isObject` type predicate of the value model. -/
def Json.isObject : Json → Bool
  | .obj _ => true
  | _ => false

/-- `isArray` type predicate of the value model. -/
def Json.isArrayJ : Json → Bool
  | .arr _ => true
  | _ => false

/-- `typeof instance === "number"` test of the value model. -/
def Json.isNumber : Json → Bool
  | .num _ => true
  | _ => false

/-- `typeof instance === "string"` test of the value model. -/
def Json.isString : Json → Bool
  | .str _ => true
  | _ => false

/-- Property lookup on an object node (`node[key]`); returns `none` for a
missing property and on non-objects, mirroring JavaScript `undefined`. -/
def Json.lookup : Json → String → Option Json
  | .obj fields, key => (fields.find? (fun f => f.1 == key)).map (·.2)
  | _, _ => none

/-- `is_integer` of the value model: any number with zero fractional part. -/
def Json.isIntegerQ (q : ℚ) : Bool := q.den == 1

/-!
## Keyword descriptors and `sortKeywords` (src/src/keyword.ts)

A keyword descriptor carries the keyword name and its dependency/dependent
edges.  Virtual keyword names begin with `@` and act as ordering barriers.
-/

/-- The sortable part of a keyword descriptor (`key`, `dependencies`,
`dependents` of the `Keyword` interface). -/
structure KeywordDesc : Type where
  key : String
  dependencies : List String
  dependents : List String
deriving DecidableEq, Repr, Inhabited

/-- `key.startsWith "@"`, the virtual-name test used throughout
`sortKeywords`, restated over the underlying character list so that concrete
runs reduce in the kernel. -/
def isVirtualKey (s : String) : Bool := "@".data.isPrefixOf s.data

/-- First index `j` (scanning from index `start`) at which `p j element`
holds; mirrors the inner `for (let j = 0; j < n; j += 1)` search loops of
`sortKeywords`. -/
def findJ (p : Nat → KeywordDesc → Bool) : Nat → List KeywordDesc → Option Nat
  | _, [] => none
  | j, k :: l => if p j k then some j else findJ p (j + 1) l

/-- First `some` result of `f` over a list, mirroring an early-exiting
`for (const x of xs)` loop. -/
def firstSome? (f : α → Option β) : List α → Option β
  | [] => none
  | a :: l =>
    match f a with
    | some b => some b
    | none => firstSome? f l

/-- Scan the `dependencies` of the keyword at position `i` for a violated
ordering constraint.  Returns `some (i, j)` when the keyword at position `j`
must be shifted to before position `i` (the `// Process dependencies.` half
of a `sortKeywords` pass). -/
def scanDeps (l : List KeywordDesc) (i : Nat) (k : KeywordDesc) : Option (Nat × Nat) :=
  firstSome?
    (fun dep =>
      if isVirtualKey dep then
        -- find keywords that list this virtual keyword in their dependents
        match findJ (fun j k' => decide (i < j) && k'.dependents.contains dep) 0 l with
        | some j => some (i, j)
        | none => none
      else
        -- find the index of the dependency in the array
        match findJ (fun _ k' => k'.key == dep) 0 l with
        | some j => if i < j then some (i, j) else none
        | none => none)
    k.dependencies

/-- Scan the `dependents` of the keyword at position `i` for a violated
ordering constraint.  Returns `some (j, i)` when the keyword at position `i`
must be shifted to before position `j` (the `// Process dependents.` half of
a `sortKeywords` pass). -/
def scanDepts (l : List KeywordDesc) (i : Nat) (k : KeywordDesc) : Option (Nat × Nat) :=
  firstSome?
    (fun dep =>
      if isVirtualKey dep then
        -- find keywords that list this virtual keyword in their dependencies
        match findJ (fun j k' => decide (j < i) && k'.dependencies.contains dep) 0 l with
        | some j => some (j, i)
        | none => none
      else
        -- find the index of the dependent in the array
        match findJ (fun _ k' => k'.key == dep) 0 l with
        | some j => if j < i then some (j, i) else none
        | none => none)
    k.dependents

/-- One pass of the outer `for (let i = 0; i < n; i += 1)` loop of
`sortKeywords`: find the first position whose dependencies or dependents are
violated and return the pending shift `(a, b)` with `a < b` (the element at
`b` is to be reinserted at `a`).  `rest` is `l.drop i`. -/
def scanFrom (l : List KeywordDesc) : Nat → List KeywordDesc → Option (Nat × Nat)
  | _, [] => none
  | i, k :: rest =>
    match scanDeps l i k with
    | some ab => some ab
    | none =>
      match scanDepts l i k with
      | some ab => some ab
      | none => scanFrom l (i + 1) rest

/-- The in-place shift performed by `sortKeywords`: remove the element at
position `b` and reinsert it at the earlier position `a`, shifting positions
`a..b-1` one place toward the back (`for (let k = …; k > …; k -= 1)`). -/
def rotateSeg (l : List KeywordDesc) (a b : Nat) : List KeywordDesc :=
  match l.get? b with
  | none => l
  | some kb => l.take a ++ kb :: ((l.drop a).take (b - a) ++ l.drop (b + 1))

/-- One full iteration of the `while (changed)` loop: locate the first
violated constraint and perform its shift, or return `none` when a complete
pass found no violation (`changed` stayed `false`). -/
def findFix (l : List KeywordDesc) : Option (List KeywordDesc) :=
  (scanFrom l 0 l).map fun ab => rotateSeg l ab.1 ab.2

/-- Iterate `findFix` with the given iteration budget.  Exhausting the budget
throws the cycle-detection `ValidationError`; its payload models the keys
interpolated into the message `"Cycle detected in keyword dependencies: …"`. -/
def sortRun : Nat → List KeywordDesc → Except (List String) (List KeywordDesc)
  | 0, l => .error (l.map KeywordDesc.key)
  | fuel + 1, l =>
    match findFix l with
    | none => .ok l
    | some l' => sortRun fuel l'

/-- `sortKeywords` (src/src/keyword.ts): stable topological sort with an
iteration cap of `n * n`; an exhausted cap reports a dependency cycle naming
the keys of the (permuted) keyword array. -/
def sortKeywords (l : List KeywordDesc) : Except (List String) (List KeywordDesc) :=
  if l.length = 0 then .ok l else sortRun (l.length * l.length) l

/-- The ordering contract claimed for `sortKeywords`, read verbatim from the
claim (self-constraints included): every real (non-virtual) dependency of a
keyword present in the list strictly precedes it, every real dependent
strictly follows it, and every keyword listing a virtual name `v` in its
`dependents` strictly precedes every keyword listing `v` in its
`dependencies`. -/
def orderOKclaim (l : List KeywordDesc) : Bool :=
  (List.range l.length).all fun i =>
    (List.range l.length).all fun j =>
      let ki := l.getD i default
      let kj := l.getD j default
      (!(isVirtualKey kj.key) → kj.key ∈ ki.dependencies → j < i) &&
      (!(isVirtualKey kj.key) → kj.key ∈ ki.dependents → i < j) &&
      ((ki.dependents.filter (fun v => isVirtualKey v)).all fun v =>
        v ∈ kj.dependencies → i < j)

/-- The ordering contract with self-constraints exempted (`i ≠ j`): the
guarantee `sortKeywords` actually establishes. -/
def orderOK (l : List KeywordDesc) : Bool :=
  (List.range l.length).all fun i =>
    (List.range l.length).all fun j =>
      i = j ||
      (let ki := l.getD i default
       let kj := l.getD j default
       (!(isVirtualKey kj.key) → kj.key ∈ ki.dependencies → j < i) &&
       (!(isVirtualKey kj.key) → kj.key ∈ ki.dependents → i < j) &&
       ((ki.dependents.filter (fun v => isVirtualKey v)).all fun v =>
         v ∈ kj.dependencies → i < j))

/-!
## Output units (src output.ts)

`OutputUnit` mirrors the source interface: valid flag, keyword location,
instance location, error message, annotation value, and the nested `errors`
and `annotations` lists.  JavaScript's absent/`undefined` fields are
`Option`s; the `absoluteKeywordLocation` field is carried nowhere into the
logic of the modelled operations and is omitted.  The `annotation` field is
named `annot` here.
-/

inductive OutputUnit : Type where
  | mk (valid : Bool) (kwLoc : Option String) (instLoc : Option String)
      (error : Option String) (annot : Option Json)
      (errors : Option (List OutputUnit))
      (annotations : Option (List OutputUnit)) : OutputUnit

instance : Inhabited OutputUnit := ⟨.mk true none none none none none none⟩

def OutputUnit.valid : OutputUnit → Bool
  | .mk v _ _ _ _ _ _ => v

def OutputUnit.kwLoc : OutputUnit → Option String
  | .mk _ kl _ _ _ _ _ => kl

def OutputUnit.instLoc : OutputUnit → Option String
  | .mk _ _ il _ _ _ _ => il

def OutputUnit.error : OutputUnit → Option String
  | .mk _ _ _ er _ _ _ => er

def OutputUnit.annot : OutputUnit → Option Json
  | .mk _ _ _ _ an _ _ => an

def OutputUnit.errors : OutputUnit → Option (List OutputUnit)
  | .mk _ _ _ _ _ ers _ => ers

def OutputUnit.annotations : OutputUnit → Option (List OutputUnit)
  | .mk _ _ _ _ _ _ ans => ans

def OutputUnit.setValid : OutputUnit → Bool → OutputUnit
  | .mk _ kl il er an ers ans, v => .mk v kl il er an ers ans

def OutputUnit.setError : OutputUnit → Option String → OutputUnit
  | .mk v kl il _ an ers ans, er => .mk v kl il er an ers ans

def OutputUnit.setAnnot : OutputUnit → Option Json → OutputUnit
  | .mk v kl il er _ ers ans, an => .mk v kl il er an ers ans

def OutputUnit.setErrors : OutputUnit → Option (List OutputUnit) → OutputUnit
  | .mk v kl il er an _ ans, ers => .mk v kl il er an ers ans

def OutputUnit.setAnnotations : OutputUnit → Option (List OutputUnit) → OutputUnit
  | .mk v kl il er an ers _, ans => .mk v kl il er an ers ans

/-- The fresh output unit `{ valid: true }` created for every nested
keyword frame. -/
def freshOutput : OutputUnit := .mk true none none none none none none

def OutputUnit.setKwLoc : OutputUnit → Option String → OutputUnit
  | .mk v _ il er an ers ans, kl => .mk v kl il er an ers ans

def OutputUnit.setInstLoc : OutputUnit → Option String → OutputUnit
  | .mk v kl _ er an ers ans, il => .mk v kl il er an ers ans

/-- `initOutput`: fill the location fields of the current frame's output
unit from the frame's pointers when they are still absent (the `undefined`
field normalization of the source has no observable effect here). -/
def initOutput (kl il : String) (o : OutputUnit) : OutputUnit :=
  let o := if (OutputUnit.kwLoc o).isNone then o.setKwLoc (some kl) else o
  if (OutputUnit.instLoc o).isNone then o.setInstLoc (some il) else o

/-- `attachError`: mark the current frame's output invalid and record the
error message (src output.ts, lines 179-191). -/
def attachError (kl il : String) (msg : String) (o : OutputUnit) : OutputUnit :=
  ((initOutput kl il o).setValid false).setError (some msg)

/-- `attachAnnotation`: record an annotation value on the current frame's
output (src output.ts, lines 198-209). -/
def attachAnnot (kl il : String) (v : Json) (o : OutputUnit) : OutputUnit :=
  (initOutput kl il o).setAnnot (some v)

/-- The emptiness test of `emitOutput`: no error, no annotation, no nested
errors, and no nested annotations. -/
def isEmptyOutput (o : OutputUnit) : Bool :=
  (OutputUnit.error o).isNone && (OutputUnit.annot o).isNone &&
    ((OutputUnit.errors o).getD []).isEmpty &&
    ((OutputUnit.annotations o).getD []).isEmpty

/-- The hoisting step of `emitOutput` (src output.ts, lines 131-143): with no
own error and no own annotation, a sole nested error is hoisted when the
`annotations` list is absent or also a singleton, and a sole nested
annotation is hoisted when additionally the `errors` list is absent. -/
def hoisted (o : OutputUnit) : OutputUnit :=
  match OutputUnit.error o, OutputUnit.annot o with
  | none, none =>
    match OutputUnit.errors o, OutputUnit.annotations o with
    | some [e], none => e
    | some [e], some [_] => e
    | none, some [a] => a
    | _, _ => o
  | _, _ => o

/-- Attach an emitted child unit to the output unit of an ancestor frame:
an invalid child forces `valid = false` and is pushed on `errors`; a valid
child is pushed on `annotations`. -/
def attachChild (base child : OutputUnit) : OutputUnit :=
  if OutputUnit.valid child then
    base.setAnnotations (some ((OutputUnit.annotations base).getD [] ++ [child]))
  else
    (base.setValid false).setErrors
      (some ((OutputUnit.errors base).getD [] ++ [child]))

/-- The parent walk of `emitOutput`: attach the child to the first ancestor
frame that owns an output unit. -/
def attachToAncestors (child : OutputUnit) :
    List (Option OutputUnit) → List (Option OutputUnit)
  | [] => []
  | none :: rest => none :: attachToAncestors child rest
  | some base :: rest => some (attachChild base child) :: rest

/-- `emitOutput` (src output.ts, lines 116-172), modelled on the chain of
ancestor frame outputs (nearest first): drop an absent or empty child
output, otherwise hoist and attach it to the nearest ancestor output. -/
def emitOutput (childOut : Option OutputUnit) (ancestors : List (Option OutputUnit)) :
    List (Option OutputUnit) :=
  match childOut with
  | none => ancestors
  | some c => if isEmptyOutput c then ancestors else attachToAncestors (hoisted c) ancestors

/-- `emitOutput` specialized to the immediate parent frame owning an output,
as in the keyword loop of `validateSchemaResource`. -/
def emitToParent (child : OutputUnit) (parentOut : OutputUnit) : OutputUnit :=
  if isEmptyOutput child then parentOut else attachChild parentOut (hoisted child)

mutual

/-- `getAnnotations` (src output.ts, lines 220-248): all output units with
an annotation whose keyword location ends with the given suffix, found in
valid output units for the current instance location. -/
def getAnnotations (suffix : String) (o : OutputUnit) : List OutputUnit :=
  if OutputUnit.valid o then
    (if (OutputUnit.annot o).isSome &&
        (match OutputUnit.kwLoc o with
          | some s => s.endsWith suffix
          | none => false) then
      [o]
    else []) ++ getAnnotationsList suffix (OutputUnit.instLoc o) ((OutputUnit.annotations o).getD [])
  else []
termination_by sizeOf o
decreasing_by
  rcases o with ⟨v, kl, il, er, an, ers, ans⟩
  simp only [OutputUnit.annotations]
  rcases ans with _ | l
  all_goals simp
  all_goals try omega

/-- The recursion of `getAnnotations` over an `annotations` list, guarded by
the instance-location comparison of the source. -/
def getAnnotationsList (suffix : String) (il : Option String) (l : List OutputUnit) :
    List OutputUnit :=
  match l with
  | [] => []
  | u :: us =>
    (if il.isNone || il == OutputUnit.instLoc u then getAnnotations suffix u else []) ++
      getAnnotationsList suffix il us
termination_by sizeOf l
decreasing_by
  all_goals simp
  all_goals try omega

end

/-!
## Deep equality and messages (value model, src validation.ts helpers)
-/

mutual

/-- Deep equality (`equal`) of the value model. -/
def Json.beq : Json → Json → Bool
  | .null, .null => true
  | .bool a, .bool b => a == b
  | .num a, .num b => a == b
  | .str a, .str b => a == b
  | .arr a, .arr b => Json.beqList a b
  | .obj a, .obj b => Json.beqFields a b
  | _, _ => false

def Json.beqList : List Json → List Json → Bool
  | [], [] => true
  | a :: as, b :: bs => Json.beq a b && Json.beqList as bs
  | _, _ => false

def Json.beqFields : List (String × Json) → List (String × Json) → Bool
  | [], [] => true
  | (ka, va) :: as, (kb, vb) :: bs => ka == kb && Json.beq va vb && Json.beqFields as bs
  | _, _ => false

end

/-- The `"a", "b" and "c"` comma-and-conjunction join used by the error
message builders of the validation keywords. -/
def joinAnd : List String → String
  | [] => ""
  | [x] => x
  | [x, y] => x ++ " and " ++ y
  | x :: rest => x ++ ", " ++ joinAnd rest

/-- JavaScript `JSON.stringify` on a plain string, as used in messages. -/
def jsQuote (s : String) : String := "\"" ++ s ++ "\""

/-- Unicode code-point length (`unicodeLength`); Lean strings are sequences
of Unicode scalar values, matching the code-point count of the source. -/
def unicodeLength (s : String) : Nat := s.length

/-!
## Draft 2020-12 validation keywords (src/src/draft-2020-12/validation.ts)

Each `validate` is modelled as a transformer of the current frame's output
unit.  The schema node value is given with the type the keyword's `parse`
guarantees (`as number` casts of the source).  `kl`/`il` are the keyword and
instance locations of the current frame, consumed by `attachError`.
-/

/-- `multipleOf` validate (validation.ts, lines 359-374). -/
def multipleOfValidate (kl il : String) (node : ℚ) (inst : Json)
    (out : OutputUnit) : OutputUnit :=
  match inst with
  | .num q =>
    if !Json.isIntegerQ (q / node) then
      attachError kl il ("not a multiple of " ++ toString node) out
    else out
  | _ => out

/-- `maximum` validate. -/
def maximumValidate (kl il : String) (node : ℚ) (inst : Json)
    (out : OutputUnit) : OutputUnit :=
  match inst with
  | .num q => if q > node then attachError kl il ("greater than " ++ toString node) out else out
  | _ => out

/-- `exclusiveMaximum` validate. -/
def exclusiveMaximumValidate (kl il : String) (node : ℚ) (inst : Json)
    (out : OutputUnit) : OutputUnit :=
  match inst with
  | .num q =>
    if q ≥ node then
      attachError kl il ("greater than or equal to " ++ toString node) out
    else out
  | _ => out

/-- `minimum` validate. -/
def minimumValidate (kl il : String) (node : ℚ) (inst : Json)
    (out : OutputUnit) : OutputUnit :=
  match inst with
  | .num q => if q < node then attachError kl il ("less than " ++ toString node) out else out
  | _ => out

/-- `exclusiveMinimum` validate. -/
def exclusiveMinimumValidate (kl il : String) (node : ℚ) (inst : Json)
    (out : OutputUnit) : OutputUnit :=
  match inst with
  | .num q =>
    if q ≤ node then
      attachError kl il ("less than or equal to " ++ toString node) out
    else out
  | _ => out

/-- `maxLength` validate. -/
def maxLengthValidate (kl il : String) (node : ℚ) (inst : Json)
    (out : OutputUnit) : OutputUnit :=
  match inst with
  | .str s =>
    if (unicodeLength s : ℚ) > node then
      attachError kl il ("longer than " ++ toString node ++ " characters") out
    else out
  | _ => out

/-- `minLength` validate. -/
def minLengthValidate (kl il : String) (node : ℚ) (inst : Json)
    (out : OutputUnit) : OutputUnit :=
  match inst with
  | .str s =>
    if (unicodeLength s : ℚ) < node then
      attachError kl il ("shorter than " ++ toString node ++ " characters") out
    else out
  | _ => out

/-- `pattern` validate; the compiled-regex test of the pattern cache is the
parameter `regexTest`. -/
def patternValidate (regexTest : String → String → Bool) (kl il : String)
    (node : String) (inst : Json) (out : OutputUnit) : OutputUnit :=
  match inst with
  | .str s =>
    if !regexTest node s then
      attachError kl il ("does not match pattern " ++ jsQuote node) out
    else out
  | _ => out

/-- `maxItems` validate. -/
def maxItemsValidate (kl il : String) (node : ℚ) (inst : Json)
    (out : OutputUnit) : OutputUnit :=
  match inst with
  | .arr items =>
    if (items.length : ℚ) > node then
      attachError kl il ("more than " ++ toString node ++ " items") out
    else out
  | _ => out

/-- `minItems` validate. -/
def minItemsValidate (kl il : String) (node : ℚ) (inst : Json)
    (out : OutputUnit) : OutputUnit :=
  match inst with
  | .arr items =>
    if (items.length : ℚ) < node then
      attachError kl il ("fewer than " ++ toString node ++ " items") out
    else out
  | _ => out

/-- The first duplicate pair found by the nested index loops of
`uniqueItems` (outer index ascending, inner index from `i + 1`). -/
def findDupFrom (items : List Json) : Nat → List Json → Option (Nat × Nat)
  | _, [] => none
  | i, x :: rest =>
    match findJdup i (i + 1) x rest with
    | some j => some (i, j)
    | none => findDupFrom items (i + 1) rest
where
  findJdup (i : Nat) : Nat → Json → List Json → Option Nat
    | _, _, [] => none
    | j, x, y :: ys => if Json.beq x y then some j else findJdup i (j + 1) x ys

/-- `uniqueItems` validate. -/
def uniqueItemsValidate (kl il : String) (node : Bool) (inst : Json)
    (out : OutputUnit) : OutputUnit :=
  match inst with
  | .arr items =>
    if !node then out
    else
      match findDupFrom items 0 items with
      | some (i, j) =>
        attachError kl il ("duplicate item at index " ++ toString i ++ " and " ++ toString j) out
      | none => out
  | _ => out

/-- `maxContains` validate; `contained` is the annotation value found by
`getChildAnnotation(frame.parent, "contains")`. -/
def maxContainsValidate (contained : Option Json) (kl il : String) (node : ℚ)
    (inst : Json) (out : OutputUnit) : OutputUnit :=
  match inst with
  | .arr items =>
    if (match contained with
        | some (.arr c) => decide ((c.length : ℚ) > node)
        | some (.bool true) => decide ((items.length : ℚ) > node)
        | _ => false) then
      attachError kl il ("more than " ++ toString node ++ " contained items") out
    else out
  | _ => out

/-- `minContains` validate. -/
def minContainsValidate (contained : Option Json) (kl il : String) (node : ℚ)
    (inst : Json) (out : OutputUnit) : OutputUnit :=
  match inst with
  | .arr items =>
    if (match contained with
        | some (.arr c) => decide ((c.length : ℚ) < node)
        | some (.bool true) => decide ((items.length : ℚ) < node)
        | _ => false) then
      attachError kl il ("fewer than " ++ toString node ++ " contained items") out
    else out
  | _ => out

/-- `maxProperties` validate. -/
def maxPropertiesValidate (kl il : String) (node : ℚ) (inst : Json)
    (out : OutputUnit) : OutputUnit :=
  match inst with
  | .obj fields =>
    if (fields.length : ℚ) > node then
      attachError kl il ("more than " ++ toString node ++ " properties") out
    else out
  | _ => out

/-- `minProperties` validate. -/
def minPropertiesValidate (kl il : String) (node : ℚ) (inst : Json)
    (out : OutputUnit) : OutputUnit :=
  match inst with
  | .obj fields =>
    if (fields.length : ℚ) < node then
      attachError kl il ("fewer than " ++ toString node ++ " properties") out
    else out
  | _ => out

/-- `required` validate. -/
def requiredValidate (kl il : String) (node : List String) (inst : Json)
    (out : OutputUnit) : OutputUnit :=
  match inst with
  | .obj _ =>
    let missing := node.filter fun key => (inst.lookup key).isNone
    if missing.isEmpty then out
    else
      attachError kl il
        ("missing required " ++ (if missing.length = 1 then "property " else "properties ") ++
          joinAnd (missing.map jsQuote)) out
  | _ => out

/-- `dependentRequired` validate. -/
def dependentRequiredValidate (kl il : String) (node : List (String × List String))
    (inst : Json) (out : OutputUnit) : OutputUnit :=
  match inst with
  | .obj fields =>
    let missing := fields.flatMap fun f =>
      match (node.find? (fun d => d.1 == f.1)).map (·.2) with
      | some requirements =>
        requirements.filterMap fun requirement =>
          if (inst.lookup requirement).isNone then some (f.1, requirement) else none
      | none => []
    if missing.isEmpty then out
    else
      attachError kl il
        ("missing dependent " ++ (if missing.length = 1 then "property " else "properties ") ++
          joinAnd (missing.map fun m => jsQuote m.2 ++ " (required by " ++ jsQuote m.1 ++ ")")) out
  | _ => out

/-!
## Draft 2020-12 applicator keywords (src/src/draft-2020-12/applicator.ts)

The recursive invocation of `validateSchemaResource` on a sub-schema is
abstracted as a sub-validator function supplied to each keyword model: it
produces the output unit that the nested frame's fresh `{ valid: true }`
output holds after the sub-schema was validated.
-/

/-- The state threaded through the item loop of `contains` validate:
the annotation accumulator (`true` or the ascending valid-index array),
the count of valid items, and the keyword frame's output unit. -/
structure ContainsState : Type where
  contains : Option (List Nat)
  containsCount : Nat
  out : OutputUnit

/-- One iteration of the `contains` item loop (applicator.ts, lines
748-776): validate the item, update the annotation accumulator, and emit the
nested frame's output. `contains = none` models the initial `true` value. -/
def containsStep (g : Json → OutputUnit) (st : ContainsState) (idxItem : Nat × Json) :
    ContainsState :=
  let child := g idxItem.2
  let st' :=
    if OutputUnit.valid child then
      match st.contains with
      | some l => { st with contains := some (l ++ [idxItem.1]), containsCount := st.containsCount + 1 }
      | none => { st with containsCount := st.containsCount + 1 }
    else
      match st.contains with
      | none => { st with contains := some (List.range idxItem.1) }
      | some _ => st
  { st' with out := emitToParent child st'.out }

/-- `contains` validate (applicator.ts, lines 722-799).  `parentNode` is the
enclosing schema object, consulted for the adjacent `minContains`. -/
def containsValidate (g : Json → OutputUnit) (parentNode : Json) (kl il : String)
    (inst : Json) (out : OutputUnit) : OutputUnit :=
  match inst with
  | .arr items =>
    let st := items.enum.foldl (containsStep g) ⟨none, 0, out⟩
    let minContains : ℚ :=
      match Json.lookup parentNode "minContains" with
      | some (.num q) => q
      | _ => 1
    if st.containsCount = 0 ∧ minContains ≠ 0 then
      attachError kl il "does not contain item" st.out
    else
      -- restoreCheckpoint: valid flag, error slot and errors list return to
      -- their values saved before the loop
      attachAnnot kl il
        (match st.contains with
          | none => .bool true
          | some l => .arr (l.map fun (n : Nat) => Json.num (n : ℚ)))
        (((st.out.setValid (OutputUnit.valid out)).setError (OutputUnit.error out)).setErrors
          (OutputUnit.errors out))
  | _ => out

/-- `properties` validate (applicator.ts, lines 830-890).  `node` is the
keyword's object value; `g key value` is the nested validation of the
instance property `value` against the sub-schema `node[key]`. -/
def propertiesValidate (g : String → Json → OutputUnit) (node : List (String × Json))
    (kl il : String) (inst : Json) (out : OutputUnit) : OutputUnit :=
  match inst with
  | .obj fields =>
    let applied := fields.filter fun f => (node.find? (fun p => p.1 == f.1)).isSome
    let evaluatedProperties := applied.map (·.1)
    let invalidProperties := (applied.filter fun f => !(OutputUnit.valid (g f.1 f.2))).map (·.1)
    let out := applied.foldl (fun acc f => emitToParent (g f.1 f.2) acc) out
    let out :=
      if invalidProperties.isEmpty then out
      else
        attachError kl il
          ((if invalidProperties.length = 1 then "invalid property " else "invalid properties ") ++
            joinAnd (invalidProperties.map jsQuote)) out
    if invalidProperties.isEmpty then
      attachAnnot kl il (.arr (evaluatedProperties.map Json.str)) out
    else out
  | _ => out

/-- `patternProperties` validate (applicator.ts, lines 946-1002): nested
frames are created per matching pattern × property, but their outputs are
never emitted; only the keyword's own summary error and annotation are
recorded.  `g pattern value` is the nested validation against
`node[pattern]`. -/
def patternPropertiesValidate (regexTest : String → String → Bool)
    (g : String → Json → OutputUnit) (node : List (String × Json)) (kl il : String)
    (inst : Json) (out : OutputUnit) : OutputUnit :=
  match inst with
  | .obj fields =>
    let matched := node.flatMap fun p =>
      (fields.filter fun f => regexTest p.1 f.1).map fun f => (p.1, f.1, f.2)
    let evaluatedProperties := matched.map (·.2.1)
    let invalidProperties :=
      (matched.filter fun m => !(OutputUnit.valid (g m.1 m.2.2))).map (·.2.1) |>.dedup
    if invalidProperties.isEmpty then
      attachAnnot kl il (.arr (evaluatedProperties.map Json.str)) out
    else
      attachError kl il
        ((if invalidProperties.length = 1 then "invalid pattern property "
          else "invalid pattern properties ") ++
          joinAnd (invalidProperties.map jsQuote)) out
  | _ => out

/-- The property-name sets extracted from the `properties` and
`patternProperties` annotations by `additionalProperties` validate. -/
def namesOfAnnot : Option Json → List String
  | some (.arr xs) => xs.filterMap fun x => match x with | .str s => some s | _ => none
  | _ => []

/-- `additionalProperties` validate (applicator.ts, lines 1026-1105):
properties not named by the adjacent `properties`/`patternProperties`
annotations are validated in nested frames whose outputs are never emitted.
`propertiesAnnot`/`patternAnnot` are the adjacent annotation values found by
`getChildAnnotation`. -/
def additionalPropertiesValidate (g : Json → OutputUnit)
    (propertiesAnnot patternAnnot : Option Json) (kl il : String)
    (inst : Json) (out : OutputUnit) : OutputUnit :=
  match inst with
  | .obj fields =>
    let propertyNames := namesOfAnnot propertiesAnnot ++ namesOfAnnot patternAnnot
    let applied := fields.filter fun f => !propertyNames.contains f.1
    let evaluatedProperties := applied.map (·.1)
    let invalidProperties := (applied.filter fun f => !(OutputUnit.valid (g f.2))).map (·.1)
    if invalidProperties.isEmpty then
      attachAnnot kl il (.arr (evaluatedProperties.map Json.str)) out
    else
      attachError kl il
        ((if invalidProperties.length = 1 then "invalid additional property "
          else "invalid additional properties ") ++
          joinAnd (invalidProperties.map jsQuote)) out
  | _ => out

/-- `propertyNames` validate (applicator.ts, lines 1115-1172): every property
name is validated as a string instance in a nested frame whose output is
never emitted; no annotation is produced. -/
def propertyNamesValidate (g : String → OutputUnit) (kl il : String)
    (inst : Json) (out : OutputUnit) : OutputUnit :=
  match inst with
  | .obj fields =>
    let invalidProperties := (fields.filter fun f => !(OutputUnit.valid (g f.1))).map (·.1)
    if invalidProperties.isEmpty then out
    else
      attachError kl il
        ((if invalidProperties.length = 1 then "invalid property name "
          else "invalid property names ") ++
          joinAnd (invalidProperties.map jsQuote)) out
  | _ => out

/-!
## `unevaluatedItems` (src draft-2020-12 unevaluated.ts)
-/

/-- The relevant annotations of `unevaluatedItems` validate: the
`/prefixItems`, `/items`, `/contains` and `/unevaluatedItems` annotations
accumulated from the parent frame's output, in call order. -/
def unevaluatedItemsAnns (parentOut : Option OutputUnit) : List OutputUnit :=
  match parentOut with
  | some po =>
    getAnnotations "/prefixItems" po ++ getAnnotations "/items" po ++
      getAnnotations "/contains" po ++ getAnnotations "/unevaluatedItems" po
  | none => []

/-- The `startIndex` computed by `unevaluatedItems` validate: the maximum of
the numeric annotation values, starting from 0. -/
def unevaluatedStartIndex (anns : List OutputUnit) : ℚ :=
  anns.foldl
    (fun acc u => match OutputUnit.annot u with | some (.num q) => max acc q | _ => acc) 0

/-- The `contained` index set accumulated from the array-valued annotations
(only numeric members can ever match an index probe of the set). -/
def unevaluatedContained (anns : List OutputUnit) : List ℚ :=
  anns.foldl
    (fun acc u =>
      match OutputUnit.annot u with
      | some (.arr xs) => acc ++ xs.filterMap fun x => match x with | .num q => some q | _ => none
      | _ => acc) []

/-- The instance indices the `unevaluatedItems` loop applies the sub-schema
to: every index from `startIndex` on that is not in the contained set.  (The
annotation values produced by `prefixItems`, `items`, `contains` and
`unevaluatedItems` are natural numbers, booleans or index arrays, so the
`for (let index = startIndex; …)` loop visits exactly these indices.) -/
def unevaluatedItemsApplied (parentOut : Option OutputUnit) (items : List Json) : List Nat :=
  let anns := unevaluatedItemsAnns parentOut
  (List.range items.length).filter fun idx =>
    unevaluatedStartIndex anns ≤ (idx : ℚ) ∧
      ¬ (unevaluatedContained anns).contains (idx : ℚ)

/-- `unevaluatedItems` validate (src draft-2020-12 unevaluated.ts, lines
38-124): inapplicable to non-arrays and when a relevant annotation is `true`;
otherwise applies the sub-schema to every uncovered index from `startIndex`
on, emits the nested outputs, and attaches the annotation `true`. -/
def unevaluatedItemsValidate (g : Json → OutputUnit) (parentOut : Option OutputUnit)
    (kl il : String) (inst : Json) (out : OutputUnit) : OutputUnit :=
  match inst with
  | .arr items =>
    let anns := unevaluatedItemsAnns parentOut
    if anns.any (fun u => match OutputUnit.annot u with | some (.bool true) => true | _ => false) then
      out
    else
      let out := (unevaluatedItemsApplied parentOut items).foldl
        (fun acc idx => emitToParent (g (items.getD idx default)) acc) out
      attachAnnot kl il (.bool true) out
  | _ => out

/-!
## `$dynamicRef` (src/src/draft-2020-12/core.ts)
-/

/-- Everything after the first `#` of a character sequence, or `none` when
no `#` occurs. -/
def splitAtHash : List Char → Option (List Char)
  | [] => none
  | c :: rest => if c = '#' then some rest else splitAtHash rest

/-- The fragment of the `$dynamicRef` URI string: everything after the first
`#` (`node.indexOf("#")` / `node.slice(hashIndex + 1)`). -/
def extractFragment (s : String) : Option String :=
  (splitAtHash s.data).map fun cs => String.mk cs

/-- Whether a dynamic frame's node is a schema object declaring
`$dynamicAnchor` equal to the anchor name. -/
def declaresDynAnchor (anchor : String) (dynamicNode : Json) : Bool :=
  dynamicNode.isObject &&
    (match dynamicNode.lookup "$dynamicAnchor" with
      | some (.str s) => s == anchor
      | _ => false)

/-- The dynamic-scope walk of `$dynamicRef` validate (core.ts, lines
540-551): starting from the statically `resolved` target, walk the frame
chain from the current frame to the root (`chain` lists the frame nodes
bottom-to-top) and replace the target with each frame node that declares a
matching `$dynamicAnchor`; the final value is the outermost such node. -/
def dynamicRefTarget (anchor : Option String) (resolved : Json) (chain : List Json) : Json :=
  match anchor with
  | none => resolved
  | some a =>
    chain.foldl (fun acc dynamicNode =>
      if declaresDynAnchor a dynamicNode then dynamicNode else acc) resolved

/-- `$dynamicRef` validate (core.ts, lines 522-565): resolve the reference,
pick the dynamic-scope target, and validate the instance against it in a
nested frame (`g target` is the nested `validateSchemaResource` call acting
on the current output unit). -/
def dynamicRefValidate (g : Json → OutputUnit → OutputUnit) (reference : Option Json)
    (node : String) (chain : List Json) (kl il : String) (out : OutputUnit) : OutputUnit :=
  match reference with
  | none => attachError kl il "unknown schema reference" out
  | some resolved =>
    if !resolved.isObject then attachError kl il "unresolved schema reference" out
    else g (dynamicRefTarget (extractFragment node) resolved chain) out

/-!
## Boolean schemas and unknown keywords
-/

/-- `validateSchemaResource` (src/src/resource.ts, lines 177-222) restricted
to its schema-node dispatch: boolean schemas short-circuit, object schemas
run the resource's sorted keyword program (`runKeys`). -/
def validateSchemaResource (runKeys : OutputUnit → OutputUnit) (kl il : String)
    (node : Json) (out : OutputUnit) : OutputUnit :=
  match node with
  | .bool true => out
  | .bool false => attachError kl il "never valid" out
  | _ => runKeys out

/-- `Schema.validate` (src schema.ts): validate an instance in a fresh
nested frame whose output unit is `{ valid: true }`. -/
def schemaValidate (runKeys : OutputUnit → OutputUnit) (node : Json) : OutputUnit :=
  validateSchemaResource runKeys "" "" node freshOutput

/-- The keyword descriptor produced by `unknownKeyword` (src keyword.ts,
lines 83-91): no dependencies and no dependents. -/
def unknownKeywordDesc (key : String) : KeywordDesc := ⟨key, [], []⟩

/-- The `parse` of an unknown keyword is the no-op of the `Keyword` mixin:
it accepts every value. -/
def unknownKeywordParse (_value : Json) : Except String Unit := .ok ()

/-- The `validate` of an unknown keyword (the `AnnotationKeyword` mixin):
attach the keyword's value as an annotation at the current location. -/
def unknownKeywordValidate (value : Json) (kl il : String) (out : OutputUnit) : OutputUnit :=
  attachAnnot kl il value out

/-- One iteration of the keyword loop of `validateSchemaResource`: run the
keyword's validate on a fresh `{ valid: true }` child output and emit it to
the parent frame's output. -/
def runKeywordStep (validateK : OutputUnit → OutputUnit) (parentOut : OutputUnit) : OutputUnit :=
  emitToParent (validateK freshOutput) parentOut

/-!
## Parse pipeline (src/src/resource.ts `parseSchemaResource`, src schema.ts
`parseSchema`)

The schema context mutated during a parse — registered resources, cached
sorted keyword programs, anchors, pending references — is modelled as an
explicit state record; a thrown `ValidationError` is an `Except.error`
carrying only the message, as the exception does.
-/

/-- The parse-time mutable state of a schema context. -/
structure SchemaContextModel : Type where
  resources : List Json := []
  keyPrograms : List (Json × List String) := []
  anchors : List (String × Json) := []
  pendingRefs : List (String × Json) := []
deriving Inhabited

/-- A keyword as seen by the parse pipeline: its descriptor and its `parse`
operation over the schema context. -/
structure PKeyword : Type where
  desc : KeywordDesc
  parse : SchemaContextModel → Except String SchemaContextModel

/-- The keyword-program loop of `parseSchemaResource` (resource.ts, lines
159-165): run each keyword's parse in order; a thrown error propagates
immediately. -/
def parseKeywords : List PKeyword → SchemaContextModel → Except String SchemaContextModel
  | [], s => .ok s
  | k :: ks, s =>
    match k.parse s with
    | .error e => .error e
    | .ok s' => parseKeywords ks s'

/-- `parseSchemaResource` (resource.ts, lines 78-168): boolean schemas
short-circuit; non-object schemas fail; object schemas register a resource,
sort the keyword program (a dependency cycle fails the parse), cache it, and
run each keyword's parse in order.  `dialect` maps a key to its keyword
implementation; unrecognized keys fall back to the unknown-keyword
annotation descriptor. -/
def parseSchemaResource (dialect : String → Option PKeyword) (node : Json)
    (s : SchemaContextModel) : Except String SchemaContextModel :=
  match node with
  | .bool _ => .ok s
  | .obj fields =>
    let s := { s with resources := s.resources ++ [node] }
    let kws := fields.map fun f =>
      (dialect f.1).getD ⟨unknownKeywordDesc f.1, fun st => .ok st⟩
    match sortKeywords (kws.map PKeyword.desc) with
    | .error keys => .error ("Cycle detected in keyword dependencies: " ++
        joinAnd (keys.map jsQuote))
    | .ok sortedDescs =>
      let sorted := sortedDescs.filterMap fun d => kws.find? fun k => k.desc.key == d.key
      let s := { s with keyPrograms := s.keyPrograms ++ [(node, sortedDescs.map KeywordDesc.key)] }
      parseKeywords sorted s
  | _ => .error "Schema must be an object or a boolean"

/-- `parseSchema` (src schema.ts, lines 626-658): initialize a fresh schema
context, parse the schema resource in it, and hand back a schema handle
carrying the node and the context.  A parse error propagates as the thrown
exception alone; the context allocated inside the call never reaches the
caller. -/
def parseSchema (dialect : String → Option PKeyword) (node : Json) :
    Except String (Json × SchemaContextModel) :=
  match parseSchemaResource dialect node {} with
  | .error e => .error e
  | .ok s => .ok (node, s)

/-!
## Theorems

Helper lemmas first, then one theorem per specification claim (with its
witness or counterexample).
-/

theorem firstSome?_eq_none {f : α → Option β} {l : List α} :
    firstSome? f l = none ↔ ∀ a ∈ l, f a = none := by
  induction l with
  | nil => simp [firstSome?]
  | cons x xs ih =>
    simp only [firstSome?]
    cases hx : f x with
    | some b => simp [hx]
    | none => simp [hx, ih]

theorem findJ_eq_none {p : Nat → KeywordDesc → Bool} {l : List KeywordDesc} :
    ∀ {s : Nat}, findJ p s l = none → ∀ m (hm : m < l.length), p (s + m) (l.get ⟨m, hm⟩) = false := by
  induction l with
  | nil => intro s _ m hm; exact absurd hm (by simp)
  | cons x xs ih =>
    intro s h m hm
    simp only [findJ] at h
    by_cases hx : p s x
    · simp [hx] at h
    · simp only [hx, if_false] at h
      match m with
      | 0 => simpa using Bool.eq_false_iff.mpr hx
      | m' + 1 =>
        have := ih h m' (by simpa using Nat.lt_of_succ_lt_succ hm)
        simpa [Nat.add_comm, Nat.add_assoc, Nat.add_left_comm] using this

theorem findJ_eq_some {p : Nat → KeywordDesc → Bool} {l : List KeywordDesc} :
    ∀ {s j : Nat}, findJ p s l = some j →
      s ≤ j ∧ j - s < l.length ∧ ∃ (h : j - s < l.length), p j (l.get ⟨j - s, h⟩) = true := by
  induction l with
  | nil => intro s j h; simp [findJ] at h
  | cons x xs ih =>
    intro s j h
    simp only [findJ] at h
    by_cases hx : p s x
    · simp only [hx, if_true, Option.some.injEq] at h
      subst h
      refine ⟨le_refl _, by simp, by simp, ?_⟩
      simpa using hx
    · simp only [hx, if_false] at h
      obtain ⟨hsj, hlen, hget, hp⟩ := ih h
      refine ⟨by omega, by simp; omega, by simp; omega, ?_⟩
      have hidx : j - s = (j - (s + 1)) + 1 := by omega
      simpa [hidx] using hp

/-- C6: validating any instance against the boolean schema `true` yields a
valid output unit with no error; against `false`, the error "never valid" is
attached and the output unit is invalid. -/
theorem boolean_schema_validate (runKeys : OutputUnit → OutputUnit) :
    (OutputUnit.valid (schemaValidate runKeys (.bool true)) = true ∧
      OutputUnit.error (schemaValidate runKeys (.bool true)) = none) ∧
    (OutputUnit.valid (schemaValidate runKeys (.bool false)) = false ∧
      OutputUnit.error (schemaValidate runKeys (.bool false)) = some "never valid") := by
  exact ⟨⟨rfl, rfl⟩, ⟨rfl, rfl⟩⟩

/-- C8: an unknown keyword's parse accepts every value, and its validate
attaches the keyword's value as an annotation at the keyword's schema
location on a valid output unit; emitting that unit appends it to the
enclosing output's annotations and leaves the valid flag and error state
untouched. -/
theorem unknown_keyword_spec (value : Json) (kl il : String) (parentOut : OutputUnit) :
    unknownKeywordParse value = .ok () ∧
    unknownKeywordValidate value kl il freshOutput =
      .mk true (some kl) (some il) none (some value) none none ∧
    runKeywordStep (unknownKeywordValidate value kl il) parentOut =
      attachChild parentOut (.mk true (some kl) (some il) none (some value) none none) ∧
    OutputUnit.valid (runKeywordStep (unknownKeywordValidate value kl il) parentOut) =
      OutputUnit.valid parentOut ∧
    OutputUnit.error (runKeywordStep (unknownKeywordValidate value kl il) parentOut) =
      OutputUnit.error parentOut ∧
    OutputUnit.errors (runKeywordStep (unknownKeywordValidate value kl il) parentOut) =
      OutputUnit.errors parentOut ∧
    OutputUnit.annotations (runKeywordStep (unknownKeywordValidate value kl il) parentOut) =
      some ((OutputUnit.annotations parentOut).getD [] ++
        [.mk true (some kl) (some il) none (some value) none none]) := by
  obtain ⟨v, pkl, pil, per, pan, pers, pans⟩ := parentOut
  refine ⟨rfl, rfl, rfl, ?_, ?_, ?_, ?_⟩ <;>
    simp [runKeywordStep, emitToParent, isEmptyOutput, hoisted, attachChild,
      unknownKeywordValidate, attachAnnot, initOutput, freshOutput,
      OutputUnit.valid, OutputUnit.error, OutputUnit.errors, OutputUnit.annotations,
      OutputUnit.annot, OutputUnit.kwLoc, OutputUnit.instLoc,
      OutputUnit.setValid, OutputUnit.setError, OutputUnit.setAnnot,
      OutputUnit.setErrors, OutputUnit.setAnnotations, OutputUnit.setKwLoc,
      OutputUnit.setInstLoc]

theorem foldl_overwrite {α : Type _} (p : α → Bool) :
    ∀ (l : List α) (init : α),
      l.foldl (fun acc x => if p x then x else acc) init =
        ((l.filter p).getLast?).getD init := by
  intro l
  induction l with
  | nil => intro init; rfl
  | cons x xs ih =>
    intro init
    simp only [List.foldl_cons, List.filter_cons]
    by_cases hx : p x
    · simp only [hx, if_true]
      rw [ih]
      cases hfl : xs.filter p with
      | nil => simp
      | cons y ys =>
        cases hz : (y :: ys).getLast? with
        | none => exact absurd (List.getLast?_eq_none_iff.mp hz) (by simp)
        | some z => simp [hz]
    · simp [hx, ih]

/-- C2: when a `$dynamicRef` URI contains a fragment, validate starts from
the statically resolved target and replaces it with the node of the
outermost (topmost) dynamic frame whose schema object declares a matching
`$dynamicAnchor`, validating that node against the instance; when no frame
in the dynamic scope declares such an anchor, the statically resolved
target is validated. -/
theorem dynamicRef_spec (g : Json → OutputUnit → OutputUnit) (resolved : Json)
    (chain : List Json) (node anchor : String) (kl il : String) (out : OutputUnit)
    (hfrag : extractFragment node = some anchor)
    (hobj : Json.isObject resolved = true) :
    dynamicRefValidate g (some resolved) node chain kl il out =
      g (((chain.filter (declaresDynAnchor anchor)).getLast?).getD resolved) out ∧
    ((∀ fnode ∈ chain, declaresDynAnchor anchor fnode = false) →
      dynamicRefValidate g (some resolved) node chain kl il out = g resolved out) := by
  have hval : dynamicRefValidate g (some resolved) node chain kl il out =
      g (dynamicRefTarget (extractFragment node) resolved chain) out := by
    simp [dynamicRefValidate, hobj]
  constructor
  · rw [hval, hfrag]
    simp only [dynamicRefTarget]
    rw [foldl_overwrite]
  · intro hnone
    rw [hval, hfrag]
    simp only [dynamicRefTarget]
    rw [foldl_overwrite]
    have : chain.filter (declaresDynAnchor anchor) = [] :=
      List.filter_eq_nil_iff.mpr (by intro a ha; simpa using hnone a ha)
    simp [this]

/-- Witness for `dynamicRef_spec` at a concrete dynamic scope: the chain
holds two frames declaring the anchor `"node"`, and the outermost one is
chosen. -/
theorem dynamicRef_spec_witness :
    dynamicRefValidate (fun target _ => .mk true none none none (some target) none none)
        (some (Json.obj [("static", Json.null)])) "#node"
        [Json.str "kw",
          Json.obj [("$dynamicAnchor", Json.str "node"), ("x", Json.num 1)],
          Json.null,
          Json.obj [("$dynamicAnchor", Json.str "node"), ("y", Json.num 2)]]
        "/$dynamicRef" "" freshOutput =
      .mk true none none none
        (some (Json.obj [("$dynamicAnchor", Json.str "node"), ("y", Json.num 2)])) none none := by
  have h := dynamicRef_spec (fun target _ => .mk true none none none (some target) none none)
    (Json.obj [("static", Json.null)])
    [Json.str "kw",
      Json.obj [("$dynamicAnchor", Json.str "node"), ("x", Json.num 1)],
      Json.null,
      Json.obj [("$dynamicAnchor", Json.str "node"), ("y", Json.num 2)]]
    "#node" "node" "/$dynamicRef" "" freshOutput rfl rfl
  rw [h.1]
  rfl

/-- C7: a parse error fails the parse immediately — the first failing
keyword's error is the whole result, and the keywords after it never run —
and the caller of `parseSchema` sees only the thrown error: the schema
context allocated inside the call (resources, cached keyword programs,
anchors, pending references) is dropped on the error path and never reaches
the caller. -/
theorem parse_failure_spec (dialect : String → Option PKeyword) (node : Json) :
    (∀ (k : PKeyword) (rest : List PKeyword) (s : SchemaContextModel) (e : String),
        PKeyword.parse k s = .error e → parseKeywords (k :: rest) s = .error e) ∧
    (∀ e : String,
        parseSchema dialect node = .error e ↔
          parseSchemaResource dialect node {} = .error e) ∧
    (∀ e : String, parseSchema dialect node = .error e →
        ∀ r, parseSchema dialect node ≠ .ok r) := by
  refine ⟨?_, ?_, ?_⟩
  · intro k rest s e h
    simp [parseKeywords, h]
  · intro e
    constructor
    · intro h
      simp only [parseSchema] at h
      cases hp : parseSchemaResource dialect node {} with
      | error e' => rw [hp] at h; simpa using h
      | ok s => rw [hp] at h; simp at h
    · intro h
      simp [parseSchema, h]
  · intro e he r hr
    rw [he] at hr
    exact Except.noConfusion hr

/-- Witness for `parse_failure_spec`: a keyword whose parse throws makes the
whole program fail with that error before the next keyword runs, and a
non-object non-boolean schema node fails `parseSchema` with the thrown
message alone. -/
theorem parse_failure_spec_witness :
    parseKeywords
        [⟨⟨"bad", [], []⟩, fun _ => .error "boom"⟩,
          ⟨⟨"good", [], []⟩, fun s => .ok { s with resources := s.resources ++ [Json.null] }⟩]
        {} = .error "boom" ∧
    parseSchema (fun _ => none) (Json.num 1) = .error "Schema must be an object or a boolean" := by
  constructor
  · exact (parse_failure_spec (fun _ => none) (Json.num 1)).1
      ⟨⟨"bad", [], []⟩, fun _ => .error "boom"⟩
      [⟨⟨"good", [], []⟩, fun s => .ok { s with resources := s.resources ++ [Json.null] }⟩]
      {} "boom" rfl
  · exact ((parse_failure_spec (fun _ => none) (Json.num 1)).2.1
      "Schema must be an object or a boolean").mpr rfl

/-- C9: every validation keyword of the Draft 2020-12 Validation vocabulary
is a no-op when the instance type is outside its applicable domain — the
numeric keywords on non-numbers, the string keywords on non-strings, the
array keywords on non-arrays, and the object keywords on non-objects return
the current output unit unchanged: no error, no annotation, untouched valid
flag. -/
theorem validation_keywords_domain_noop :
    (∀ (kl il : String) (node : ℚ) (inst : Json) (out : OutputUnit),
        Json.isNumber inst = false → multipleOfValidate kl il node inst out = out) ∧
    (∀ (kl il : String) (node : ℚ) (inst : Json) (out : OutputUnit),
        Json.isNumber inst = false → maximumValidate kl il node inst out = out) ∧
    (∀ (kl il : String) (node : ℚ) (inst : Json) (out : OutputUnit),
        Json.isNumber inst = false → exclusiveMaximumValidate kl il node inst out = out) ∧
    (∀ (kl il : String) (node : ℚ) (inst : Json) (out : OutputUnit),
        Json.isNumber inst = false → minimumValidate kl il node inst out = out) ∧
    (∀ (kl il : String) (node : ℚ) (inst : Json) (out : OutputUnit),
        Json.isNumber inst = false → exclusiveMinimumValidate kl il node inst out = out) ∧
    (∀ (kl il : String) (node : ℚ) (inst : Json) (out : OutputUnit),
        Json.isString inst = false → maxLengthValidate kl il node inst out = out) ∧
    (∀ (kl il : String) (node : ℚ) (inst : Json) (out : OutputUnit),
        Json.isString inst = false → minLengthValidate kl il node inst out = out) ∧
    (∀ (regexTest : String → String → Bool) (kl il : String) (node : String)
        (inst : Json) (out : OutputUnit),
        Json.isString inst = false → patternValidate regexTest kl il node inst out = out) ∧
    (∀ (kl il : String) (node : ℚ) (inst : Json) (out : OutputUnit),
        Json.isArrayJ inst = false → maxItemsValidate kl il node inst out = out) ∧
    (∀ (kl il : String) (node : ℚ) (inst : Json) (out : OutputUnit),
        Json.isArrayJ inst = false → minItemsValidate kl il node inst out = out) ∧
    (∀ (kl il : String) (node : Bool) (inst : Json) (out : OutputUnit),
        Json.isArrayJ inst = false → uniqueItemsValidate kl il node inst out = out) ∧
    (∀ (contained : Option Json) (kl il : String) (node : ℚ) (inst : Json) (out : OutputUnit),
        Json.isArrayJ inst = false → maxContainsValidate contained kl il node inst out = out) ∧
    (∀ (contained : Option Json) (kl il : String) (node : ℚ) (inst : Json) (out : OutputUnit),
        Json.isArrayJ inst = false → minContainsValidate contained kl il node inst out = out) ∧
    (∀ (kl il : String) (node : ℚ) (inst : Json) (out : OutputUnit),
        Json.isObject inst = false → maxPropertiesValidate kl il node inst out = out) ∧
    (∀ (kl il : String) (node : ℚ) (inst : Json) (out : OutputUnit),
        Json.isObject inst = false → minPropertiesValidate kl il node inst out = out) ∧
    (∀ (kl il : String) (node : List String) (inst : Json) (out : OutputUnit),
        Json.isObject inst = false → requiredValidate kl il node inst out = out) ∧
    (∀ (kl il : String) (node : List (String × List String)) (inst : Json) (out : OutputUnit),
        Json.isObject inst = false → dependentRequiredValidate kl il node inst out = out) := by
  refine ⟨?_, ?_, ?_, ?_, ?_, ?_, ?_, ?_, ?_, ?_, ?_, ?_, ?_, ?_, ?_, ?_, ?_⟩ <;>
    first
    | (intro kl il node inst out h
       cases inst <;> first | rfl | simp [Json.isNumber, Json.isString, Json.isArrayJ, Json.isObject] at h)
    | (intro p kl il node inst out h
       cases inst <;> first | rfl | simp [Json.isNumber, Json.isString, Json.isArrayJ, Json.isObject] at h)

/-- Witness for `validation_keywords_domain_noop`: each keyword applied to a
concrete out-of-domain instance returns the output unit unchanged. -/
theorem validation_keywords_domain_noop_witness :
    multipleOfValidate "/multipleOf" "" 2 (Json.str "x") freshOutput = freshOutput ∧
    maximumValidate "/maximum" "" 2 (Json.str "x") freshOutput = freshOutput ∧
    exclusiveMaximumValidate "/exclusiveMaximum" "" 2 Json.null freshOutput = freshOutput ∧
    minimumValidate "/minimum" "" 2 (Json.arr []) freshOutput = freshOutput ∧
    exclusiveMinimumValidate "/exclusiveMinimum" "" 2 (Json.bool true) freshOutput = freshOutput ∧
    maxLengthValidate "/maxLength" "" 2 (Json.num 3) freshOutput = freshOutput ∧
    minLengthValidate "/minLength" "" 2 (Json.num 3) freshOutput = freshOutput ∧
    patternValidate (fun _ _ => false) "/pattern" "" "a" (Json.num 3) freshOutput = freshOutput ∧
    maxItemsValidate "/maxItems" "" 0 (Json.str "x") freshOutput = freshOutput ∧
    minItemsValidate "/minItems" "" 5 (Json.str "x") freshOutput = freshOutput ∧
    uniqueItemsValidate "/uniqueItems" "" true (Json.obj []) freshOutput = freshOutput ∧
    maxContainsValidate (some (Json.bool true)) "/maxContains" "" 0 (Json.num 1) freshOutput = freshOutput ∧
    minContainsValidate (some (Json.bool true)) "/minContains" "" 5 (Json.num 1) freshOutput = freshOutput ∧
    maxPropertiesValidate "/maxProperties" "" 0 (Json.arr [Json.null]) freshOutput = freshOutput ∧
    minPropertiesValidate "/minProperties" "" 5 (Json.arr [Json.null]) freshOutput = freshOutput ∧
    requiredValidate "/required" "" ["a"] (Json.str "a") freshOutput = freshOutput ∧
    dependentRequiredValidate "/dependentRequired" "" [("a", ["b"])] (Json.str "a") freshOutput = freshOutput := by
  obtain ⟨h1, h2, h3, h4, h5, h6, h7, h8, h9, h10, h11, h12, h13, h14, h15, h16, h17⟩ :=
    validation_keywords_domain_noop
  exact ⟨h1 _ _ _ _ _ rfl, h2 _ _ _ _ _ rfl, h3 _ _ _ _ _ rfl, h4 _ _ _ _ _ rfl,
    h5 _ _ _ _ _ rfl, h6 _ _ _ _ _ rfl, h7 _ _ _ _ _ rfl, h8 _ _ _ _ _ _ rfl,
    h9 _ _ _ _ _ rfl, h10 _ _ _ _ _ rfl, h11 _ _ _ _ _ rfl, h12 _ _ _ _ _ _ rfl,
    h13 _ _ _ _ _ _ rfl, h14 _ _ _ _ _ rfl, h15 _ _ _ _ _ rfl, h16 _ _ _ _ _ rfl,
    h17 _ _ _ _ _ rfl⟩

theorem attachChild_fields (base child : OutputUnit) :
    OutputUnit.error (attachChild base child) = OutputUnit.error base ∧
    OutputUnit.annot (attachChild base child) = OutputUnit.annot base ∧
    OutputUnit.kwLoc (attachChild base child) = OutputUnit.kwLoc base ∧
    OutputUnit.instLoc (attachChild base child) = OutputUnit.instLoc base ∧
    (OutputUnit.valid child = true →
      OutputUnit.valid (attachChild base child) = OutputUnit.valid base ∧
      OutputUnit.errors (attachChild base child) = OutputUnit.errors base ∧
      OutputUnit.annotations (attachChild base child) =
        some ((OutputUnit.annotations base).getD [] ++ [child])) ∧
    (OutputUnit.valid child = false →
      OutputUnit.valid (attachChild base child) = false ∧
      OutputUnit.annotations (attachChild base child) = OutputUnit.annotations base ∧
      OutputUnit.errors (attachChild base child) =
        some ((OutputUnit.errors base).getD [] ++ [child])) := by
  obtain ⟨v, kl, il, er, an, ers, ans⟩ := base
  obtain ⟨cv, ckl, cil, cer, can, cers, cans⟩ := child
  cases cv <;>
    simp [attachChild, OutputUnit.valid, OutputUnit.error, OutputUnit.annot,
      OutputUnit.kwLoc, OutputUnit.instLoc, OutputUnit.errors, OutputUnit.annotations,
      OutputUnit.setValid, OutputUnit.setErrors, OutputUnit.setAnnotations]

theorem emitToParent_fold (cs : List OutputUnit) :
    ∀ out : OutputUnit,
      OutputUnit.error (cs.foldl (fun acc c => emitToParent c acc) out) = OutputUnit.error out ∧
      OutputUnit.annot (cs.foldl (fun acc c => emitToParent c acc) out) = OutputUnit.annot out ∧
      OutputUnit.kwLoc (cs.foldl (fun acc c => emitToParent c acc) out) = OutputUnit.kwLoc out ∧
      OutputUnit.instLoc (cs.foldl (fun acc c => emitToParent c acc) out) = OutputUnit.instLoc out ∧
      OutputUnit.valid (cs.foldl (fun acc c => emitToParent c acc) out) =
        (OutputUnit.valid out &&
          (cs.filter fun c => !isEmptyOutput c && !(OutputUnit.valid (hoisted c))).isEmpty) ∧
      OutputUnit.errors (cs.foldl (fun acc c => emitToParent c acc) out) =
        (if (cs.filter fun c => !isEmptyOutput c && !(OutputUnit.valid (hoisted c))).isEmpty then
          OutputUnit.errors out
        else
          some ((OutputUnit.errors out).getD [] ++
            ((cs.filter fun c => !isEmptyOutput c && !(OutputUnit.valid (hoisted c))).map hoisted))) ∧
      OutputUnit.annotations (cs.foldl (fun acc c => emitToParent c acc) out) =
        (if (cs.filter fun c => !isEmptyOutput c && OutputUnit.valid (hoisted c)).isEmpty then
          OutputUnit.annotations out
        else
          some ((OutputUnit.annotations out).getD [] ++
            ((cs.filter fun c => !isEmptyOutput c && OutputUnit.valid (hoisted c)).map hoisted))) := by
  induction cs with
  | nil => intro out; simp
  | cons c cs ih =>
    intro out
    rw [List.foldl_cons]
    by_cases hemp : isEmptyOutput c
    · rw [show emitToParent c out = out from by simp [emitToParent, hemp]]
      have hfc : ((c :: cs).filter fun c => !isEmptyOutput c && !(OutputUnit.valid (hoisted c))) =
          (cs.filter fun c => !isEmptyOutput c && !(OutputUnit.valid (hoisted c))) := by
        simp [List.filter_cons, hemp]
      have hfa : ((c :: cs).filter fun c => !isEmptyOutput c && OutputUnit.valid (hoisted c)) =
          (cs.filter fun c => !isEmptyOutput c && OutputUnit.valid (hoisted c)) := by
        simp [List.filter_cons, hemp]
      rw [hfc, hfa]
      exact ih out
    · rw [show emitToParent c out = attachChild out (hoisted c) from by simp [emitToParent, hemp]]
      obtain ⟨he, ha, hk, hi, hv, hers, hans⟩ := ih (attachChild out (hoisted c))
      obtain ⟨ae, aa, ak, ai, avt, avf⟩ := attachChild_fields out (hoisted c)
      by_cases hval : OutputUnit.valid (hoisted c) = true
      · have hfc : ((c :: cs).filter fun c => !isEmptyOutput c && !(OutputUnit.valid (hoisted c))) =
            (cs.filter fun c => !isEmptyOutput c && !(OutputUnit.valid (hoisted c))) := by
          simp [List.filter_cons, hemp, hval]
        have hfa : ((c :: cs).filter fun c => !isEmptyOutput c && OutputUnit.valid (hoisted c)) =
            c :: (cs.filter fun c => !isEmptyOutput c && OutputUnit.valid (hoisted c)) := by
          simp [List.filter_cons, hemp, hval]
        obtain ⟨bv, bers, bans⟩ := avt hval
        refine ⟨he.trans ae, ha.trans aa, hk.trans ak, hi.trans ai, ?_, ?_, ?_⟩
        · rw [hv, bv, hfc]
        · rw [hers, bers, hfc]
        · rw [hans, bans, hfa]
          by_cases hfl : (cs.filter fun c => !isEmptyOutput c && OutputUnit.valid (hoisted c)).isEmpty
          · have hnil : (cs.filter fun c => !isEmptyOutput c && OutputUnit.valid (hoisted c)) = [] :=
              List.isEmpty_iff.mp hfl
            simp [hfl, hnil]
          · simp [hfl]
      · have hvf : OutputUnit.valid (hoisted c) = false := by simpa using hval
        have hfc : ((c :: cs).filter fun c => !isEmptyOutput c && !(OutputUnit.valid (hoisted c))) =
            c :: (cs.filter fun c => !isEmptyOutput c && !(OutputUnit.valid (hoisted c))) := by
          simp [List.filter_cons, hemp, hvf]
        have hfa : ((c :: cs).filter fun c => !isEmptyOutput c && OutputUnit.valid (hoisted c)) =
            (cs.filter fun c => !isEmptyOutput c && OutputUnit.valid (hoisted c)) := by
          simp [List.filter_cons, hemp, hvf]
        obtain ⟨bv, bans, bers⟩ := avf hvf
        refine ⟨he.trans ae, ha.trans aa, hk.trans ak, hi.trans ai, ?_, ?_, ?_⟩
        · rw [hv, bv, hfc]
          simp
        · rw [hers, bers, hfc]
          by_cases hfl : (cs.filter fun c => !isEmptyOutput c && !(OutputUnit.valid (hoisted c))).isEmpty
          · have hnil : (cs.filter fun c => !isEmptyOutput c && !(OutputUnit.valid (hoisted c))) = [] :=
              List.isEmpty_iff.mp hfl
            simp [hfl, hnil]
          · simp [hfl]
        · rw [hans, bans, hfa]

theorem attachError_fields (kl il msg : String) (o : OutputUnit) :
    OutputUnit.errors (attachError kl il msg o) = OutputUnit.errors o ∧
    OutputUnit.annotations (attachError kl il msg o) = OutputUnit.annotations o ∧
    OutputUnit.annot (attachError kl il msg o) = OutputUnit.annot o ∧
    OutputUnit.error (attachError kl il msg o) = some msg ∧
    OutputUnit.valid (attachError kl il msg o) = false := by
  obtain ⟨v, okl, oil, er, an, ers, ans⟩ := o
  simp only [attachError, initOutput, OutputUnit.kwLoc, OutputUnit.instLoc]
  cases okl <;> cases oil <;>
    simp [OutputUnit.setKwLoc, OutputUnit.setInstLoc, OutputUnit.setValid,
      OutputUnit.setError, OutputUnit.errors, OutputUnit.annotations,
      OutputUnit.annot, OutputUnit.error, OutputUnit.valid]

theorem attachAnnot_fields (kl il : String) (value : Json) (o : OutputUnit) :
    OutputUnit.errors (attachAnnot kl il value o) = OutputUnit.errors o ∧
    OutputUnit.annotations (attachAnnot kl il value o) = OutputUnit.annotations o ∧
    OutputUnit.annot (attachAnnot kl il value o) = some value ∧
    OutputUnit.error (attachAnnot kl il value o) = OutputUnit.error o ∧
    OutputUnit.valid (attachAnnot kl il value o) = OutputUnit.valid o := by
  obtain ⟨v, okl, oil, er, an, ers, ans⟩ := o
  simp only [attachAnnot, initOutput, OutputUnit.kwLoc, OutputUnit.instLoc]
  cases okl <;> cases oil <;>
    simp [OutputUnit.setKwLoc, OutputUnit.setInstLoc, OutputUnit.setAnnot,
      OutputUnit.errors, OutputUnit.annotations, OutputUnit.annot,
      OutputUnit.error, OutputUnit.valid]

/-- C10: when a sub-schema applied by `patternProperties`,
`additionalProperties` or `propertyNames` fails for some property, no child
output unit is attached to the output tree — the nested `errors` and
`annotations` lists of the keyword's own output unit are exactly those it
started with, and only the keyword's own summary error is recorded — whereas
`properties` emits each applied child's non-empty output unit into the tree:
invalid children (after hoisting) are appended to the keyword unit's
`errors`, valid ones to its `annotations`. -/
theorem object_applicator_child_emission :
    (∀ (regexTest : String → String → Bool) (g : String → Json → OutputUnit)
        (node : List (String × Json)) (kl il : String) (fields : List (String × Json))
        (out : OutputUnit),
        OutputUnit.errors
            (patternPropertiesValidate regexTest g node kl il (.obj fields) out) =
          OutputUnit.errors out ∧
        OutputUnit.annotations
            (patternPropertiesValidate regexTest g node kl il (.obj fields) out) =
          OutputUnit.annotations out) ∧
    (∀ (g : Json → OutputUnit) (propertiesAnnot patternAnnot : Option Json)
        (kl il : String) (fields : List (String × Json)) (out : OutputUnit),
        OutputUnit.errors
            (additionalPropertiesValidate g propertiesAnnot patternAnnot kl il (.obj fields) out) =
          OutputUnit.errors out ∧
        OutputUnit.annotations
            (additionalPropertiesValidate g propertiesAnnot patternAnnot kl il (.obj fields) out) =
          OutputUnit.annotations out) ∧
    (∀ (g : String → OutputUnit) (kl il : String) (fields : List (String × Json))
        (out : OutputUnit),
        OutputUnit.errors (propertyNamesValidate g kl il (.obj fields) out) =
          OutputUnit.errors out ∧
        OutputUnit.annotations (propertyNamesValidate g kl il (.obj fields) out) =
          OutputUnit.annotations out) ∧
    (∀ (g : String → Json → OutputUnit) (node : List (String × Json)) (kl il : String)
        (fields : List (String × Json)) (out : OutputUnit),
        OutputUnit.errors (propertiesValidate g node kl il (.obj fields) out) =
          (if (((fields.filter fun f => (node.find? fun p => p.1 == f.1).isSome).map
                  fun f => g f.1 f.2).filter
                fun c => !isEmptyOutput c && !(OutputUnit.valid (hoisted c))).isEmpty then
            OutputUnit.errors out
          else
            some ((OutputUnit.errors out).getD [] ++
              ((((fields.filter fun f => (node.find? fun p => p.1 == f.1).isSome).map
                    fun f => g f.1 f.2).filter
                  fun c => !isEmptyOutput c && !(OutputUnit.valid (hoisted c))).map hoisted))) ∧
        OutputUnit.annotations (propertiesValidate g node kl il (.obj fields) out) =
          (if (((fields.filter fun f => (node.find? fun p => p.1 == f.1).isSome).map
                  fun f => g f.1 f.2).filter
                fun c => !isEmptyOutput c && OutputUnit.valid (hoisted c)).isEmpty then
            OutputUnit.annotations out
          else
            some ((OutputUnit.annotations out).getD [] ++
              ((((fields.filter fun f => (node.find? fun p => p.1 == f.1).isSome).map
                    fun f => g f.1 f.2).filter
                  fun c => !isEmptyOutput c && OutputUnit.valid (hoisted c)).map hoisted)))) := by
  refine ⟨?_, ?_, ?_, ?_⟩
  · intro regexTest g node kl il fields out
    simp only [patternPropertiesValidate]
    by_cases hinv :
        (((node.flatMap fun p =>
            (fields.filter fun f => regexTest p.1 f.1).map fun f => (p.1, f.1, f.2)).filter
          fun m => !(OutputUnit.valid (g m.1 m.2.2))).map (·.2.1)).dedup.isEmpty
    · simp only [hinv, if_true]
      exact ⟨(attachAnnot_fields _ _ _ _).1, (attachAnnot_fields _ _ _ _).2.1⟩
    · simp only [hinv, if_false]
      exact ⟨(attachError_fields _ _ _ _).1, (attachError_fields _ _ _ _).2.1⟩
  · intro g pa qa kl il fields out
    simp only [additionalPropertiesValidate]
    by_cases hinv :
        (((fields.filter fun f => !(namesOfAnnot pa ++ namesOfAnnot qa).contains f.1).filter
            fun f => !(OutputUnit.valid (g f.2))).map (·.1)).isEmpty
    · simp only [hinv, if_true]
      exact ⟨(attachAnnot_fields _ _ _ _).1, (attachAnnot_fields _ _ _ _).2.1⟩
    · simp only [hinv, if_false]
      exact ⟨(attachError_fields _ _ _ _).1, (attachError_fields _ _ _ _).2.1⟩
  · intro g kl il fields out
    simp only [propertyNamesValidate]
    by_cases hinv : ((fields.filter fun f => !(OutputUnit.valid (g f.1))).map (·.1)).isEmpty
    · simp only [hinv, if_true, and_self]
    · simp only [hinv, if_false]
      exact ⟨(attachError_fields _ _ _ _).1, (attachError_fields _ _ _ _).2.1⟩
  · intro g node kl il fields out
    simp only [propertiesValidate]
    have hfold :
        ((fields.filter fun f => (node.find? fun p => p.1 == f.1).isSome).foldl
            (fun acc f => emitToParent (g f.1 f.2) acc) out) =
          (((fields.filter fun f => (node.find? fun p => p.1 == f.1).isSome).map
              fun f => g f.1 f.2).foldl (fun acc c => emitToParent c acc) out) := by
      rw [List.foldl_map]
    obtain ⟨he, ha, hk, hi, hv, hers, hans⟩ :=
      emitToParent_fold
        ((fields.filter fun f => (node.find? fun p => p.1 == f.1).isSome).map
          fun f => g f.1 f.2) out
    by_cases hinv :
        (((fields.filter fun f => (node.find? fun p => p.1 == f.1).isSome).filter
            fun f => !(OutputUnit.valid (g f.1 f.2))).map (·.1)).isEmpty
    · rw [if_pos hinv, if_pos hinv]
      constructor
      · rw [(attachAnnot_fields _ _ _ _).1, hfold, hers]
      · rw [(attachAnnot_fields _ _ _ _).2.1, hfold, hans]
    · rw [if_neg hinv, if_neg hinv]
      constructor
      · rw [(attachError_fields _ _ _ _).1, hfold, hers]
      · rw [(attachError_fields _ _ _ _).2.1, hfold, hans]

theorem containsStep_count (g : Json → OutputUnit) :
    ∀ (l : List Json) (s : Nat) (st : ContainsState),
      ((List.enumFrom s l).foldl (containsStep g) st).containsCount =
        st.containsCount + (l.filter fun x => OutputUnit.valid (g x)).length := by
  intro l
  induction l with
  | nil => intro s st; simp [List.enumFrom]
  | cons x xs ih =>
    intro s st
    simp only [List.enumFrom, List.foldl_cons, List.filter_cons]
    by_cases hx : OutputUnit.valid (g x) = true
    · cases hst : st.contains <;>
        simp [containsStep, hx, hst, ih, Nat.add_comm, Nat.add_assoc, Nat.add_left_comm]
    · have hx' : OutputUnit.valid (g x) = false := by simpa using hx
      cases hst : st.contains <;>
        simp [containsStep, hx', hst, ih, Nat.add_comm, Nat.add_assoc, Nat.add_left_comm]

theorem containsStep_some (g : Json → OutputUnit) :
    ∀ (l : List Json) (s : Nat) (l₀ : List Nat) (c : Nat) (o : OutputUnit),
      ((List.enumFrom s l).foldl (containsStep g) ⟨some l₀, c, o⟩).contains =
        some (l₀ ++ (((List.enumFrom s l).filter fun p => OutputUnit.valid (g p.2)).map (·.1))) := by
  intro l
  induction l with
  | nil => intro s l₀ c o; simp [List.enumFrom]
  | cons x xs ih =>
    intro s l₀ c o
    simp only [List.enumFrom, List.foldl_cons, List.filter_cons]
    by_cases hx : OutputUnit.valid (g x) = true
    · simp only [containsStep, hx, if_true]
      rw [ih]
      simp [hx]
    · have hx' : OutputUnit.valid (g x) = false := by simpa using hx
      simp only [containsStep, hx', if_false, Bool.false_eq_true]
      rw [ih]

theorem containsStep_none (g : Json → OutputUnit) :
    ∀ (l pre : List Json), (∀ x ∈ pre, OutputUnit.valid (g x) = true) →
      ∀ (c : Nat) (o : OutputUnit),
        ((List.enumFrom pre.length l).foldl (containsStep g) ⟨none, c, o⟩).contains =
          (if l.all (fun x => OutputUnit.valid (g x)) then none
          else
            some (((List.enumFrom 0 (pre ++ l)).filter fun p =>
              OutputUnit.valid (g p.2)).map (·.1))) := by
  intro l
  induction l with
  | nil => intro pre hpre c o; simp [List.enumFrom]
  | cons x xs ih =>
    intro pre hpre c o
    simp only [List.enumFrom, List.foldl_cons]
    by_cases hx : OutputUnit.valid (g x) = true
    · simp only [containsStep, hx, if_true]
      have hih := ih (pre ++ [x]) (by
        intro y hy
        rcases List.mem_append.mp hy with hy | hy
        · exact hpre y hy
        · simpa [List.mem_singleton.mp hy] using hx) (c + 1) (emitToParent (g x) o)
      simp only [List.length_append, List.length_singleton] at hih
      rw [hih]
      have hassoc : (pre ++ [x]) ++ xs = pre ++ x :: xs := by simp
      rw [hassoc]
      simp [List.all_cons, hx]
    · have hx' : OutputUnit.valid (g x) = false := by simpa using hx
      simp only [containsStep, hx', Bool.false_eq_true, if_false]
      rw [containsStep_some]
      simp only [List.all_cons, hx', Bool.false_and, if_false]
      congr 1
      rw [List.enumFrom_append pre (x :: xs) 0, List.filter_append]
      have hprefil : (List.enumFrom 0 pre).filter
          (fun p => OutputUnit.valid (g p.2)) = List.enumFrom 0 pre := by
        apply List.filter_eq_self.mpr
        intro p hp
        exact hpre p.2 (List.snd_mem_of_mem_enumFrom hp)
      rw [hprefil, List.map_append]
      have hmfst : (List.enumFrom 0 pre).map (·.1) = List.range pre.length := by
        rw [show ((·.1) : Nat × Json → Nat) = Prod.fst from rfl]
        rw [List.enumFrom_map_fst, List.range_eq_range']
      rw [hmfst]
      simp only [Nat.zero_add, List.enumFrom, List.filter_cons, hx', Bool.false_eq_true]
      simp

theorem setVEE_fields (o : OutputUnit) (v : Bool) (e : Option String)
    (ers : Option (List OutputUnit)) :
    OutputUnit.valid (((o.setValid v).setError e).setErrors ers) = v ∧
    OutputUnit.error (((o.setValid v).setError e).setErrors ers) = e ∧
    OutputUnit.errors (((o.setValid v).setError e).setErrors ers) = ers ∧
    OutputUnit.annot (((o.setValid v).setError e).setErrors ers) = OutputUnit.annot o ∧
    OutputUnit.annotations (((o.setValid v).setError e).setErrors ers) =
      OutputUnit.annotations o := by
  obtain ⟨ov, okl, oil, oer, oan, oers, oans⟩ := o
  simp [OutputUnit.setValid, OutputUnit.setError, OutputUnit.setErrors,
    OutputUnit.valid, OutputUnit.error, OutputUnit.errors, OutputUnit.annot,
    OutputUnit.annotations]

/-- C5: for every array instance, `contains` attaches an error exactly when
no instance item validates against its sub-schema and the adjacent
`minContains` is not 0; on success it restores the checkpointed valid flag
and error state and attaches an annotation that is the ascending array of
the indices whose items validated, or the boolean `true` when the sub-schema
validated at every index of the instance (including the empty array). -/
theorem contains_spec (g : Json → OutputUnit) (parentNode : Json) (kl il : String)
    (items : List Json) (minC : ℚ)
    (hmin : minC = (match Json.lookup parentNode "minContains" with
      | some (.num q) => q
      | _ => 1)) :
    ((OutputUnit.error (containsValidate g parentNode kl il (.arr items) freshOutput)).isSome ↔
      ((items.filter fun x => OutputUnit.valid (g x)) = [] ∧ minC ≠ 0)) ∧
    ((items.filter fun x => OutputUnit.valid (g x)) = [] ∧ minC ≠ 0 →
      OutputUnit.error (containsValidate g parentNode kl il (.arr items) freshOutput) =
          some "does not contain item" ∧
        OutputUnit.valid (containsValidate g parentNode kl il (.arr items) freshOutput) =
          false) ∧
    (¬((items.filter fun x => OutputUnit.valid (g x)) = [] ∧ minC ≠ 0) →
      OutputUnit.annot (containsValidate g parentNode kl il (.arr items) freshOutput) =
          some (if items.all (fun x => OutputUnit.valid (g x)) then Json.bool true
            else Json.arr ((((List.enumFrom 0 items).filter fun p =>
              OutputUnit.valid (g p.2)).map (·.1)).map fun (n : Nat) => Json.num (n : ℚ))) ∧
        OutputUnit.valid (containsValidate g parentNode kl il (.arr items) freshOutput) =
          true ∧
        OutputUnit.error (containsValidate g parentNode kl il (.arr items) freshOutput) =
          none) := by
  have hcount := containsStep_count g items 0 ⟨none, 0, freshOutput⟩
  have hcont := containsStep_none g items [] (by intro x hx; cases hx) 0 freshOutput
  simp only [List.length_nil, List.nil_append] at hcont
  simp only [containsValidate, List.enum_eq_enumFrom]
  by_cases hc : (items.filter fun x => OutputUnit.valid (g x)) = [] ∧ minC ≠ 0
  · have hcond : ((List.enumFrom 0 items).foldl (containsStep g)
        ⟨none, 0, freshOutput⟩).containsCount = 0 ∧
        (match Json.lookup parentNode "minContains" with
          | some (.num q) => q
          | _ => (1 : ℚ)) ≠ 0 := by
      constructor
      · rw [hcount, hc.1]
        simp
      · rw [← hmin]
        exact hc.2
    rw [if_pos hcond]
    refine ⟨?_, ?_, ?_⟩
    · simp [(attachError_fields _ _ _ _).2.2.2.1, hc]
    · intro _
      exact ⟨(attachError_fields _ _ _ _).2.2.2.1, (attachError_fields _ _ _ _).2.2.2.2⟩
    · intro hcon
      exact absurd hc hcon
  · have hcond : ¬(((List.enumFrom 0 items).foldl (containsStep g)
        ⟨none, 0, freshOutput⟩).containsCount = 0 ∧
        (match Json.lookup parentNode "minContains" with
          | some (.num q) => q
          | _ => (1 : ℚ)) ≠ 0) := by
      intro ⟨h1, h2⟩
      apply hc
      constructor
      · rw [hcount] at h1
        have h1' : 0 + (List.filter (fun x => OutputUnit.valid (g x)) items).length = 0 := h1
        exact List.length_eq_zero.mp (by omega)
      · rw [hmin]
        exact h2
    rw [if_neg hcond]
    have hann := attachAnnot_fields kl il
      (match ((List.enumFrom 0 items).foldl (containsStep g) ⟨none, 0, freshOutput⟩).contains with
        | none => Json.bool true
        | some l => Json.arr (l.map fun (n : Nat) => Json.num (n : ℚ)))
      (((((List.enumFrom 0 items).foldl (containsStep g)
        ⟨none, 0, freshOutput⟩).out.setValid (OutputUnit.valid freshOutput)).setError
          (OutputUnit.error freshOutput)).setErrors (OutputUnit.errors freshOutput))
    obtain ⟨sv, se, sers, san, sans⟩ := setVEE_fields
      (((List.enumFrom 0 items).foldl (containsStep g) ⟨none, 0, freshOutput⟩).out)
      (OutputUnit.valid freshOutput) (OutputUnit.error freshOutput)
      (OutputUnit.errors freshOutput)
    refine ⟨?_, ?_, ?_⟩
    · rw [hann.2.2.2.1, se]
      constructor
      · intro h
        simp [freshOutput, OutputUnit.error] at h
      · intro h
        exact absurd h hc
    · intro h
      exact absurd h hc
    · intro _
      refine ⟨?_, ?_, ?_⟩
      · rw [hann.2.2.1, hcont]
        by_cases hall : items.all (fun x => OutputUnit.valid (g x)) = true
        · simp [hall]
        · have hall' : items.all (fun x => OutputUnit.valid (g x)) = false := by
            simpa using hall
          simp [hall']
      · rw [hann.2.2.2.2, sv]
        rfl
      · rw [hann.2.2.2.1, se]
        rfl

/-- Witness for `contains_spec`: with a sub-schema accepting exactly
`true`-valued items, `[null, true]` succeeds with annotation `[1]` and
`[null]` fails with the "does not contain item" error. -/
theorem contains_spec_witness :
    OutputUnit.annot
        (containsValidate
          (fun j => match j with
            | Json.bool true => freshOutput
            | _ => OutputUnit.mk false none none (some "bad") none none none)
          (Json.obj []) "/contains" "" (.arr [Json.null, Json.bool true]) freshOutput) =
      some (Json.arr [Json.num ((1 : Nat) : ℚ)]) ∧
    OutputUnit.error
        (containsValidate
          (fun j => match j with
            | Json.bool true => freshOutput
            | _ => OutputUnit.mk false none none (some "bad") none none none)
          (Json.obj []) "/contains" "" (.arr [Json.null]) freshOutput) =
      some "does not contain item" := by
  constructor
  · have h := contains_spec
      (fun j => match j with
        | Json.bool true => freshOutput
        | _ => OutputUnit.mk false none none (some "bad") none none none)
      (Json.obj []) "/contains" "" [Json.null, Json.bool true] 1 rfl
    have h4 := h.2.2 (fun hcontra => nomatch hcontra.1)
    rw [h4.1]
    rfl
  · have h := contains_spec
      (fun j => match j with
        | Json.bool true => freshOutput
        | _ => OutputUnit.mk false none none (some "bad") none none none)
      (Json.obj []) "/contains" "" [Json.null] 1 rfl
    exact (h.2.1 ⟨rfl, by norm_num⟩).1

/-- C4 counterexample: on the empty array with no relevant annotations the
`unevaluatedItems` sub-schema is applied to no index at all, yet the
annotation `true` is still attached — refuting the claim that the
annotation is produced if and only if the sub-schema was applied at least
once (the `count` tracked by the source is never consulted). -/
theorem unevaluatedItems_counterexample :
    unevaluatedItemsApplied none [] = [] ∧
    OutputUnit.annot
        (unevaluatedItemsValidate (fun _ => freshOutput) none "/unevaluatedItems" ""
          (.arr []) freshOutput) =
      some (Json.bool true) :=
  ⟨rfl, rfl⟩

/-- C4 (amended): for every array instance, `unevaluatedItems` is
inapplicable when a relevant annotation in dynamic scope is the boolean
`true`; otherwise it applies its sub-schema exactly to the instance indices
at or above the maximum numeric annotation value that are not listed in any
array-valued annotation, emits each applied nested output, and attaches the
annotation `true` regardless of how many times the sub-schema was applied. -/
theorem unevaluatedItems_spec (g : Json → OutputUnit) (parentOut : Option OutputUnit)
    (kl il : String) (items : List Json) (out : OutputUnit) :
    ((unevaluatedItemsAnns parentOut).any
        (fun u => match OutputUnit.annot u with
          | some (.bool true) => true
          | _ => false) = true →
      unevaluatedItemsValidate g parentOut kl il (.arr items) out = out) ∧
    ((unevaluatedItemsAnns parentOut).any
        (fun u => match OutputUnit.annot u with
          | some (.bool true) => true
          | _ => false) = false →
      OutputUnit.annot (unevaluatedItemsValidate g parentOut kl il (.arr items) out) =
          some (Json.bool true) ∧
        OutputUnit.error (unevaluatedItemsValidate g parentOut kl il (.arr items) out) =
          OutputUnit.error out ∧
        OutputUnit.valid (unevaluatedItemsValidate g parentOut kl il (.arr items) out) =
          (OutputUnit.valid out &&
            (((unevaluatedItemsApplied parentOut items).map fun idx =>
                g (items.getD idx default)).filter
              fun c => !isEmptyOutput c && !(OutputUnit.valid (hoisted c))).isEmpty) ∧
        OutputUnit.errors (unevaluatedItemsValidate g parentOut kl il (.arr items) out) =
          (if (((unevaluatedItemsApplied parentOut items).map fun idx =>
                  g (items.getD idx default)).filter
                fun c => !isEmptyOutput c && !(OutputUnit.valid (hoisted c))).isEmpty then
            OutputUnit.errors out
          else
            some ((OutputUnit.errors out).getD [] ++
              ((((unevaluatedItemsApplied parentOut items).map fun idx =>
                    g (items.getD idx default)).filter
                  fun c => !isEmptyOutput c && !(OutputUnit.valid (hoisted c))).map hoisted))) ∧
        OutputUnit.annotations (unevaluatedItemsValidate g parentOut kl il (.arr items) out) =
          (if (((unevaluatedItemsApplied parentOut items).map fun idx =>
                  g (items.getD idx default)).filter
                fun c => !isEmptyOutput c && OutputUnit.valid (hoisted c)).isEmpty then
            OutputUnit.annotations out
          else
            some ((OutputUnit.annotations out).getD [] ++
              ((((unevaluatedItemsApplied parentOut items).map fun idx =>
                    g (items.getD idx default)).filter
                  fun c => !isEmptyOutput c && OutputUnit.valid (hoisted c)).map hoisted)))) := by
  constructor
  · intro hany
    simp only [unevaluatedItemsValidate, hany, if_true]
  · intro hany
    simp only [unevaluatedItemsValidate, hany, Bool.false_eq_true, if_false]
    have hfold :
        ((unevaluatedItemsApplied parentOut items).foldl
            (fun acc idx => emitToParent (g (items.getD idx default)) acc) out) =
          (((unevaluatedItemsApplied parentOut items).map fun idx =>
              g (items.getD idx default)).foldl (fun acc c => emitToParent c acc) out) := by
      rw [List.foldl_map]
    obtain ⟨he, ha, hk, hi, hv, hers, hans⟩ :=
      emitToParent_fold
        ((unevaluatedItemsApplied parentOut items).map fun idx => g (items.getD idx default)) out
    obtain ⟨ge, ga, gan, gerr, gv⟩ := attachAnnot_fields kl il (Json.bool true)
      ((unevaluatedItemsApplied parentOut items).foldl
        (fun acc idx => emitToParent (g (items.getD idx default)) acc) out)
    refine ⟨gan, ?_, ?_, ?_, ?_⟩
    · rw [gerr, hfold, he]
    · rw [gv, hfold, hv]
    · rw [ge, hfold, hers]
    · rw [ga, hfold, hans]

/-- Witness for `unevaluatedItems_spec`: with no relevant annotations, a
rejecting sub-schema is applied to the single item, the keyword's output
turns invalid with the emitted child error, and the annotation `true` is
attached. -/
theorem unevaluatedItems_spec_witness :
    OutputUnit.annot
        (unevaluatedItemsValidate
          (fun _ => OutputUnit.mk false none none (some "bad") none none none) none
          "/unevaluatedItems" "" (.arr [Json.null]) freshOutput) =
      some (Json.bool true) ∧
    OutputUnit.valid
        (unevaluatedItemsValidate
          (fun _ => OutputUnit.mk false none none (some "bad") none none none) none
          "/unevaluatedItems" "" (.arr [Json.null]) freshOutput) =
      false ∧
    OutputUnit.errors
        (unevaluatedItemsValidate
          (fun _ => OutputUnit.mk false none none (some "bad") none none none) none
          "/unevaluatedItems" "" (.arr [Json.null]) freshOutput) =
      some [OutputUnit.mk false none none (some "bad") none none none] := by
  have h := (unevaluatedItems_spec
    (fun _ => OutputUnit.mk false none none (some "bad") none none none) none
    "/unevaluatedItems" "" [Json.null] freshOutput).2 rfl
  refine ⟨h.1, ?_, ?_⟩
  · rw [h.2.2.1]
    rfl
  · rw [h.2.2.2.1]
    rfl

theorem attachToAncestors_all_none (h : OutputUnit) :
    ∀ (pre : List (Option OutputUnit)) (base : OutputUnit) (rest : List (Option OutputUnit)),
      (∀ x ∈ pre, x = none) →
      attachToAncestors h (pre ++ some base :: rest) =
        pre ++ some (attachChild base h) :: rest := by
  intro pre
  induction pre with
  | nil => intro base rest _; rfl
  | cons x xs ih =>
    intro base rest hall
    have hx : x = none := hall x (by simp)
    subst hx
    simp only [List.cons_append, attachToAncestors, List.append_eq]
    rw [ih base rest (fun y hy => hall y (by simp [hy]))]

/-- C3 counterexample: a child output unit with exactly one nested error
*and* one nested annotation — something else of substance — is still
hoisted: `emitOutput` replaces the child with its sole nested error,
discarding the nested annotation, and attaches that nested error (whose own
`errors` list is absent) to the ancestor instead of the child (whose
`errors` list holds one unit), contrary to the claim's
"nothing else of substance" condition. -/
theorem emitOutput_counterexample :
    emitOutput
        (some (.mk false none none none none
          (some [.mk false none none (some "x") none none none])
          (some [.mk true none none none (some Json.null) none none])))
        [some freshOutput] =
      [some (.mk false none none none none
        (some [.mk false none none (some "x") none none none]) none)] ∧
    hoisted
        (.mk false none none none none
          (some [.mk false none none (some "x") none none none])
          (some [.mk true none none none (some Json.null) none none])) =
      .mk false none none (some "x") none none none ∧
    OutputUnit.errors
        (hoisted
          (.mk false none none none none
            (some [.mk false none none (some "x") none none none])
            (some [.mk true none none none (some Json.null) none none]))) = none ∧
    OutputUnit.errors
        (.mk false none none none none
          (some [.mk false none none (some "x") none none none])
          (some [.mk true none none none (some Json.null) none none]) : OutputUnit) =
      some [.mk false none none (some "x") none none none] :=
  ⟨rfl, rfl, rfl, rfl⟩

/-- C3 (amended): `emitOutput` drops an absent or empty child (no error, no
annotation, no nested errors, no nested annotations); with no own error and
no own annotation it hoists the sole nested error when the `annotations`
list is absent or has exactly one element, and hoists the sole nested
annotation when the `errors` list is absent; it then attaches the resulting
unit to the nearest ancestor frame owning an output unit, setting that
ancestor's `valid` to `false` and appending to its `errors` list when the
attached unit is invalid, and appending to its `annotations` list when it
is valid. -/
theorem emitOutput_spec (c : OutputUnit) (pre : List (Option OutputUnit)) (base : OutputUnit)
    (rest : List (Option OutputUnit)) (ancestors : List (Option OutputUnit)) :
    emitOutput none ancestors = ancestors ∧
    (isEmptyOutput c = true → emitOutput (some c) ancestors = ancestors) ∧
    (∀ e, OutputUnit.error c = none → OutputUnit.annot c = none →
      OutputUnit.errors c = some [e] →
      (OutputUnit.annotations c = none ∨ ∃ a, OutputUnit.annotations c = some [a]) →
      hoisted c = e) ∧
    (∀ a, OutputUnit.error c = none → OutputUnit.annot c = none →
      OutputUnit.errors c = none → OutputUnit.annotations c = some [a] →
      hoisted c = a) ∧
    ((∀ x ∈ pre, x = none) → isEmptyOutput c = false →
      emitOutput (some c) (pre ++ some base :: rest) =
        pre ++ some (attachChild base (hoisted c)) :: rest) ∧
    (OutputUnit.valid (hoisted c) = false →
      OutputUnit.valid (attachChild base (hoisted c)) = false ∧
      OutputUnit.errors (attachChild base (hoisted c)) =
        some ((OutputUnit.errors base).getD [] ++ [hoisted c]) ∧
      OutputUnit.annotations (attachChild base (hoisted c)) =
        OutputUnit.annotations base) ∧
    (OutputUnit.valid (hoisted c) = true →
      OutputUnit.valid (attachChild base (hoisted c)) = OutputUnit.valid base ∧
      OutputUnit.annotations (attachChild base (hoisted c)) =
        some ((OutputUnit.annotations base).getD [] ++ [hoisted c]) ∧
      OutputUnit.errors (attachChild base (hoisted c)) = OutputUnit.errors base) := by
  obtain ⟨hce, hca, hck, hci, hvt, hvf⟩ := attachChild_fields base (hoisted c)
  refine ⟨rfl, ?_, ?_, ?_, ?_, ?_, ?_⟩
  · intro h
    simp [emitOutput, h]
  · intro e he ha hers hans
    obtain ⟨cv, ckl, cil, cer, can, cers, cans⟩ := c
    simp only [OutputUnit.error] at he
    simp only [OutputUnit.annot] at ha
    simp only [OutputUnit.errors] at hers
    simp only [OutputUnit.annotations] at hans
    subst he ha hers
    rcases hans with hans | ⟨a, hans⟩ <;> subst hans <;> rfl
  · intro a he ha hers hans
    obtain ⟨cv, ckl, cil, cer, can, cers, cans⟩ := c
    simp only [OutputUnit.error] at he
    simp only [OutputUnit.annot] at ha
    simp only [OutputUnit.errors] at hers
    simp only [OutputUnit.annotations] at hans
    subst he ha hers hans
    rfl
  · intro hall hne
    simp only [emitOutput, hne, Bool.false_eq_true, if_false]
    exact attachToAncestors_all_none (hoisted c) pre base rest hall
  · intro hv
    obtain ⟨bv, bans, bers⟩ := hvf hv
    exact ⟨bv, bers, bans⟩
  · intro hv
    obtain ⟨bv, bers, bans⟩ := hvt hv
    exact ⟨bv, bans, bers⟩

/-- Witness for `emitOutput_spec`: a child with a sole nested error and no
annotations list is hoisted and attached to the nearest ancestor owning an
output, past a frame without one. -/
theorem emitOutput_spec_witness :
    emitOutput
        (some (.mk false none none none none
          (some [.mk false none none (some "y") none none none]) none))
        [none, some freshOutput] =
      [none, some (.mk false none none none none
        (some [.mk false none none (some "y") none none none]) none)] := by
  have h := emitOutput_spec
    (.mk false none none none none
      (some [.mk false none none (some "y") none none none]) none)
    [none] freshOutput [] [none, some freshOutput]
  have h5 := h.2.2.2.2.1 (fun x hx => by simpa using List.mem_singleton.mp hx) rfl
  have h3 := h.2.2.1 (.mk false none none (some "y") none none none) rfl rfl rfl (Or.inl rfl)
  rw [show ([none, some freshOutput] : List (Option OutputUnit)) =
    [none] ++ some freshOutput :: [] from rfl, h5, h3]
  rfl

theorem firstSome?_eq_some {f : α → Option β} {l : List α} {y : β} :
    firstSome? f l = some y → ∃ a ∈ l, f a = some y := by
  induction l with
  | nil => intro h; simp [firstSome?] at h
  | cons x xs ih =>
    intro h
    simp only [firstSome?] at h
    cases hx : f x with
    | some b =>
      rw [hx] at h
      simp only [Option.some.injEq] at h
      exact ⟨x, by simp, by rw [hx, h]⟩
    | none =>
      rw [hx] at h
      obtain ⟨a, ha, hfa⟩ := ih h
      exact ⟨a, by simp [ha], hfa⟩

theorem rotateSeg_perm (l : List KeywordDesc) (a b : Nat) (hab : a ≤ b)
    (hb : b < l.length) : (rotateSeg l a b).Perm l := by
  have hget : l.get? b = some (l.get ⟨b, hb⟩) := List.get?_eq_get hb
  rw [rotateSeg, hget]
  have hsplit : l = l.take a ++ ((l.drop a).take (b - a) ++ l.drop b) := by
    conv_lhs => rw [← List.take_append_drop a l]
    congr 1
    conv_lhs => rw [← List.take_append_drop (b - a) (l.drop a)]
    congr 1
    rw [List.drop_drop]
    congr 1
    omega
  have hdropb : l.drop b = l.get ⟨b, hb⟩ :: l.drop (b + 1) := by
    rw [List.drop_eq_getElem_cons hb]
    rfl
  conv_rhs => rw [hsplit, hdropb]
  apply List.Perm.append_left
  exact (List.perm_middle).symm

theorem scanDeps_some_bounds {l : List KeywordDesc} {i : Nat} {k : KeywordDesc}
    {a b : Nat} (h : scanDeps l i k = some (a, b)) :
    a = i ∧ i < b ∧ b < l.length := by
  obtain ⟨dep, _, hdep⟩ := firstSome?_eq_some h
  by_cases hv : isVirtualKey dep
  · simp only [hv, if_true] at hdep
    cases hfind : findJ (fun j k' => decide (i < j) && k'.dependents.contains dep) 0 l with
    | none => rw [hfind] at hdep; cases hdep
    | some j =>
      rw [hfind] at hdep
      simp only [Option.some.injEq, Prod.mk.injEq] at hdep
      obtain ⟨ha, hbj⟩ := hdep
      obtain ⟨_, hjlen, _, hp⟩ := findJ_eq_some hfind
      simp only [Nat.sub_zero] at hjlen hp
      have hij : i < j := by
        have := (Bool.and_eq_true _ _).mp hp
        exact of_decide_eq_true this.1
      subst ha hbj
      exact ⟨rfl, hij, hjlen⟩
  · simp only [hv, Bool.false_eq_true, if_false] at hdep
    cases hfind : findJ (fun _ k' => k'.key == dep) 0 l with
    | none => rw [hfind] at hdep; cases hdep
    | some j =>
      rw [hfind] at hdep
      by_cases hij : i < j
      · simp only [hij, if_true, Option.some.injEq, Prod.mk.injEq] at hdep
        obtain ⟨ha, hbj⟩ := hdep
        obtain ⟨_, hjlen, _⟩ := findJ_eq_some hfind
        simp only [Nat.sub_zero] at hjlen
        subst ha hbj
        exact ⟨rfl, hij, hjlen⟩
      · simp only [hij, if_false] at hdep
        cases hdep

theorem scanDepts_some_bounds {l : List KeywordDesc} {i : Nat} {k : KeywordDesc}
    {a b : Nat} (h : scanDepts l i k = some (a, b)) :
    b = i ∧ a < i := by
  obtain ⟨dep, _, hdep⟩ := firstSome?_eq_some h
  by_cases hv : isVirtualKey dep
  · simp only [hv, if_true] at hdep
    cases hfind : findJ (fun j k' => decide (j < i) && k'.dependencies.contains dep) 0 l with
    | none => rw [hfind] at hdep; cases hdep
    | some j =>
      rw [hfind] at hdep
      simp only [Option.some.injEq, Prod.mk.injEq] at hdep
      obtain ⟨ha, hbj⟩ := hdep
      obtain ⟨_, _, _, hp⟩ := findJ_eq_some hfind
      have hij : j < i := by
        have := (Bool.and_eq_true _ _).mp hp
        exact of_decide_eq_true this.1
      subst ha hbj
      exact ⟨rfl, hij⟩
  · simp only [hv, Bool.false_eq_true, if_false] at hdep
    cases hfind : findJ (fun _ k' => k'.key == dep) 0 l with
    | none => rw [hfind] at hdep; cases hdep
    | some j =>
      rw [hfind] at hdep
      by_cases hij : j < i
      · simp only [hij, if_true, Option.some.injEq, Prod.mk.injEq] at hdep
        obtain ⟨ha, hbj⟩ := hdep
        subst ha hbj
        exact ⟨rfl, hij⟩
      · simp only [hij, if_false] at hdep
        cases hdep

theorem scanFrom_some_bounds {l : List KeywordDesc} :
    ∀ (rest : List KeywordDesc) (i : Nat) (a b : Nat), rest = l.drop i →
      scanFrom l i rest = some (a, b) → a < b ∧ b < l.length := by
  intro rest
  induction rest with
  | nil => intro i a b _ h; simp [scanFrom] at h
  | cons k rest' ih =>
    intro i a b hdrop h
    have hi : i < l.length := by
      by_contra hle
      push_neg at hle
      rw [List.drop_eq_nil_of_le hle] at hdrop
      cases hdrop
    simp only [scanFrom] at h
    cases hd : scanDeps l i k with
    | some ab =>
      rw [hd] at h
      simp only [Option.some.injEq] at h
      subst h
      obtain ⟨ha, hib, hblen⟩ := scanDeps_some_bounds hd
      exact ⟨by omega, hblen⟩
    | none =>
      rw [hd] at h
      cases hdt : scanDepts l i k with
      | some ab =>
        rw [hdt] at h
        simp only [Option.some.injEq] at h
        subst h
        obtain ⟨hb, hai⟩ := scanDepts_some_bounds hdt
        exact ⟨by omega, by omega⟩
      | none =>
        rw [hdt] at h
        refine ih (i + 1) a b ?_ h
        have := List.drop_eq_getElem_cons hi
        rw [this] at hdrop
        exact (List.cons.injEq .. ▸ hdrop).2

theorem scanFrom_none_clean {l : List KeywordDesc} :
    ∀ (rest : List KeywordDesc) (i : Nat), rest = l.drop i →
      scanFrom l i rest = none →
      ∀ j (hj : j < l.length), i ≤ j →
        scanDeps l j (l.get ⟨j, hj⟩) = none ∧ scanDepts l j (l.get ⟨j, hj⟩) = none := by
  intro rest
  induction rest with
  | nil =>
    intro i hdrop _ j hj hij
    have : l.length ≤ i := by
      by_contra hle
      push_neg at hle
      rw [List.drop_eq_getElem_cons hle] at hdrop
      cases hdrop
    omega
  | cons k rest' ih =>
    intro i hdrop h j hj hij
    have hi : i < l.length := by
      by_contra hle
      push_neg at hle
      rw [List.drop_eq_nil_of_le hle] at hdrop
      cases hdrop
    have hdrop' := hdrop
    rw [List.drop_eq_getElem_cons hi] at hdrop'
    have hk : k = l.get ⟨i, hi⟩ := (List.cons.injEq .. ▸ hdrop').1
    have hrest : rest' = l.drop (i + 1) := (List.cons.injEq .. ▸ hdrop').2
    simp only [scanFrom] at h
    cases hd : scanDeps l i k with
    | some ab => rw [hd] at h; cases h
    | none =>
      rw [hd] at h
      cases hdt : scanDepts l i k with
      | some ab => rw [hdt] at h; cases h
      | none =>
        rw [hdt] at h
        rcases Nat.eq_or_lt_of_le hij with heq | hlt
        · subst heq
          rw [← hk]
          exact ⟨hd, hdt⟩
        · exact ih (i + 1) hrest h j hj hlt

theorem findFix_some_perm {l l' : List KeywordDesc} (h : findFix l = some l') :
    l'.Perm l := by
  simp only [findFix] at h
  cases hs : scanFrom l 0 l with
  | none => rw [hs] at h; cases h
  | some ab =>
    rw [hs] at h
    simp at h
    obtain ⟨hab, hblen⟩ := scanFrom_some_bounds l 0 ab.1 ab.2 (by simp) hs
    rw [← h]
    exact rotateSeg_perm l ab.1 ab.2 (Nat.le_of_lt hab) hblen

theorem findFix_none_clean {l : List KeywordDesc} (h : findFix l = none) :
    ∀ j (hj : j < l.length),
      scanDeps l j (l.get ⟨j, hj⟩) = none ∧ scanDepts l j (l.get ⟨j, hj⟩) = none := by
  simp only [findFix] at h
  cases hs : scanFrom l 0 l with
  | none =>
    exact fun j hj => scanFrom_none_clean l 0 (by simp) hs j hj (Nat.zero_le j)
  | some ab => rw [hs] at h; cases h

theorem sortRun_ok {fuel : Nat} :
    ∀ {l l' : List KeywordDesc}, sortRun fuel l = .ok l' →
      l'.Perm l ∧ findFix l' = none := by
  induction fuel with
  | zero => intro l l' h; exact nomatch h
  | succ fuel ih =>
    intro l l' h
    simp only [sortRun] at h
    cases hf : findFix l with
    | none =>
      rw [hf] at h
      simp only [Except.ok.injEq] at h
      subst h
      exact ⟨List.Perm.refl l, hf⟩
    | some l₂ =>
      rw [hf] at h
      obtain ⟨hperm, hclean⟩ := ih h
      exact ⟨hperm.trans (findFix_some_perm hf), hclean⟩

theorem sortRun_error {fuel : Nat} :
    ∀ {l : List KeywordDesc} {ks : List String}, sortRun fuel l = .error ks →
      ∃ l'' : List KeywordDesc, l''.Perm l ∧ ks = l''.map KeywordDesc.key := by
  induction fuel with
  | zero =>
    intro l ks h
    simp only [sortRun, Except.error.injEq] at h
    exact ⟨l, List.Perm.refl l, h.symm⟩
  | succ fuel ih =>
    intro l ks h
    simp only [sortRun] at h
    cases hf : findFix l with
    | none => rw [hf] at h; cases h
    | some l₂ =>
      rw [hf] at h
      obtain ⟨l'', hperm, hks⟩ := ih h
      exact ⟨l'', hperm.trans (findFix_some_perm hf), hks⟩

theorem orderOK_of_clean (l : List KeywordDesc) (hnd : (l.map KeywordDesc.key).Nodup)
    (hclean : ∀ j (hj : j < l.length),
      scanDeps l j (l.get ⟨j, hj⟩) = none ∧ scanDepts l j (l.get ⟨j, hj⟩) = none) :
    orderOK l = true := by
  have hkey_inj : ∀ (i j : Nat) (hi : i < l.length) (hj : j < l.length),
      (l.get ⟨i, hi⟩).key = (l.get ⟨j, hj⟩).key → i = j := by
    intro i j hi hj hkey
    have hmi : i < (l.map KeywordDesc.key).length := by simpa using hi
    have hmj : j < (l.map KeywordDesc.key).length := by simpa using hj
    have : (l.map KeywordDesc.key).get ⟨i, hmi⟩ = (l.map KeywordDesc.key).get ⟨j, hmj⟩ := by
      simpa [List.get_eq_getElem, List.getElem_map] using hkey
    have := (List.Nodup.get_inj_iff hnd).mp this
    simpa using this
  rw [orderOK]
  apply List.all_eq_true.mpr
  intro i hi
  have hi' : i < l.length := List.mem_range.mp hi
  apply List.all_eq_true.mpr
  intro j hj
  have hj' : j < l.length := List.mem_range.mp hj
  by_cases hij : i = j
  · simp [hij]
  · have hgi : l.getD i default = l.get ⟨i, hi'⟩ := by
      rw [List.getD_eq_getElem l default hi']
      simp
    have hgj : l.getD j default = l.get ⟨j, hj'⟩ := by
      rw [List.getD_eq_getElem l default hj']
      simp
    rw [Bool.or_eq_true]
    right
    simp only [hgi, hgj, Bool.and_eq_true, decide_eq_true_eq, List.all_eq_true]
    refine ⟨⟨?_, ?_⟩, ?_⟩
    · -- real dependency of position i at position j precedes i
      intro hnv hmem
      have hdeps := (hclean i hi').1
      have hbranch := firstSome?_eq_none.mp hdeps _ hmem
      rw [if_neg (by simpa using hnv)] at hbranch
      cases hfind : findJ (fun _ k' => k'.key == (l.get ⟨j, hj'⟩).key) 0 l with
      | none =>
        have := findJ_eq_none hfind j hj'
        simp at this
      | some j' =>
        rw [hfind] at hbranch
        have hle : ¬ i < j' := by
          intro hlt
          simp [hlt] at hbranch
        obtain ⟨_, hj'len, _, hp⟩ := findJ_eq_some hfind
        simp only [Nat.sub_zero] at hj'len hp
        have hkeq : (l.get ⟨j', hj'len⟩).key = (l.get ⟨j, hj'⟩).key := by
          simpa using hp
        have := hkey_inj j' j hj'len hj' hkeq
        omega
    · -- real dependent of position i at position j follows i
      intro hnv hmem
      have hdeps := (hclean i hi').2
      have hbranch := firstSome?_eq_none.mp hdeps _ hmem
      rw [if_neg (by simpa using hnv)] at hbranch
      cases hfind : findJ (fun _ k' => k'.key == (l.get ⟨j, hj'⟩).key) 0 l with
      | none =>
        have := findJ_eq_none hfind j hj'
        simp at this
      | some j' =>
        rw [hfind] at hbranch
        have hle : ¬ j' < i := by
          intro hlt
          simp [hlt] at hbranch
        obtain ⟨_, hj'len, _, hp⟩ := findJ_eq_some hfind
        simp only [Nat.sub_zero] at hj'len hp
        have hkeq : (l.get ⟨j', hj'len⟩).key = (l.get ⟨j, hj'⟩).key := by
          simpa using hp
        have := hkey_inj j' j hj'len hj' hkeq
        omega
    · -- a virtual name in the dependents of position i and the
      -- dependencies of position j orders i before j
      intro v hv
      have hfilter := List.mem_filter.mp hv
      intro hmem2
      have hdeps := (hclean j hj').1
      have hbranch := firstSome?_eq_none.mp hdeps _ hmem2
      rw [if_pos hfilter.2] at hbranch
      cases hfind : findJ
          (fun m k' => decide (j < m) && k'.dependents.contains v) 0 l with
      | none =>
        have hat := findJ_eq_none hfind i hi'
        simp only [Nat.zero_add, Bool.and_eq_false_iff] at hat
        rcases hat with hat | hat
        · have : ¬ j < i := by simpa using hat
          omega
        · have hcontains : (l.get ⟨i, hi'⟩).dependents.contains v = true := by
            exact List.elem_eq_true_of_mem hfilter.1
          rw [hcontains] at hat
          cases hat
      | some m =>
        rw [hfind] at hbranch
        cases hbranch

/-- C1 counterexample: for the singleton list whose keyword lists itself as
a dependency, no order satisfies the claimed contract — a keyword cannot
strictly precede itself — so the claim requires the cycle-detection error;
yet `sortKeywords` returns the list unchanged without any error, because
the source only reacts to a dependency found at a *strictly larger* index. -/
theorem sortKeywords_counterexample :
    (∀ p ∈ ([⟨"A", ["A"], []⟩] : List KeywordDesc).permutations, orderOKclaim p = false) ∧
    sortKeywords [⟨"A", ["A"], []⟩] = .ok [⟨"A", ["A"], []⟩] := by
  constructor
  · intro p hp
    have hperm := List.mem_permutations.mp hp
    have hp' := List.perm_singleton.mp hperm
    subst hp'
    decide
  · rfl

/-- C1 (amended): for every keyword list with distinct keys, whenever
`sortKeywords` returns normally it has permuted the list into an order in
which every real dependency of a keyword K present at another position
precedes K, every real dependent of K present at another position follows
K, and for every virtual name, a keyword listing it in its dependents
precedes every other keyword listing it in its dependencies; and whenever
no permutation of the list satisfies that contract, `sortKeywords` fails
with the cycle-detection error, naming exactly the keys of the list. -/
theorem sortKeywords_spec (l : List KeywordDesc) (hnd : (l.map KeywordDesc.key).Nodup) :
    (∀ l', sortKeywords l = .ok l' → l'.Perm l ∧ orderOK l' = true) ∧
    ((∀ p ∈ l.permutations', orderOK p = false) →
      ∃ ks, sortKeywords l = .error ks ∧ ks.Perm (l.map KeywordDesc.key)) := by
  have hmain : ∀ l', sortKeywords l = .ok l' → l'.Perm l ∧ orderOK l' = true := by
    intro l' hok
    rw [sortKeywords] at hok
    by_cases hlen : l.length = 0
    · rw [if_pos hlen] at hok
      have hl : l = [] := List.length_eq_zero.mp hlen
      have hl' : l = l' := by simpa using hok
      subst hl'
      subst hl
      exact ⟨List.Perm.refl _, rfl⟩
    · rw [if_neg hlen] at hok
      obtain ⟨hperm, hclean⟩ := sortRun_ok hok
      refine ⟨hperm, ?_⟩
      have hnd' : (l'.map KeywordDesc.key).Nodup :=
        (List.Perm.nodup_iff (hperm.map KeywordDesc.key)).mpr hnd
      exact orderOK_of_clean l' hnd' (findFix_none_clean hclean)
  refine ⟨hmain, ?_⟩
  intro hall
  cases hres : sortKeywords l with
  | ok l' =>
    obtain ⟨hperm, hOK⟩ := hmain l' hres
    have := hall l' (List.mem_permutations'.mpr hperm)
    rw [hOK] at this
    cases this
  | error ks =>
    rw [sortKeywords] at hres
    by_cases hlen : l.length = 0
    · rw [if_pos hlen] at hres
      cases hres
    · rw [if_neg hlen] at hres
      obtain ⟨l'', hperm, hks⟩ := sortRun_error hres
      refine ⟨ks, rfl, ?_⟩
      rw [hks]
      exact hperm.map KeywordDesc.key

/-- Witness for `sortKeywords_spec`: a virtual barrier `@V` moves its
consumer after its producer, and a genuine two-keyword dependency cycle is
reported with both keys named. -/
theorem sortKeywords_spec_witness :
    (([⟨"A", [], ["@V"]⟩, ⟨"B", ["@V"], []⟩] : List KeywordDesc).Perm
      [⟨"B", ["@V"], []⟩, ⟨"A", [], ["@V"]⟩] ∧
      orderOK [⟨"A", [], ["@V"]⟩, ⟨"B", ["@V"], []⟩] = true) ∧
    (∃ ks, sortKeywords [⟨"A", ["B"], []⟩, ⟨"B", ["A"], []⟩] = .error ks ∧
      ks.Perm ["A", "B"]) := by
  constructor
  · exact (sortKeywords_spec [⟨"B", ["@V"], []⟩, ⟨"A", [], ["@V"]⟩] (by decide)).1
      [⟨"A", [], ["@V"]⟩, ⟨"B", ["@V"], []⟩] rfl
  · exact (sortKeywords_spec [⟨"A", ["B"], []⟩, ⟨"B", ["A"], []⟩] (by decide)).2
      (by decide)
